import Mathlib

/-!
Verification development for the `parameterize` repository.

Shallow embedding of the QM-result orchestration and filtering pipeline:
  - parameterization/util.py : getDipole, scanDihedrals (rotamer generation),
    makeAtomNamesUnique, filterQMResults
  - parameterization/fixes.py : fixPhosphateTypes
  - qm/fake.py : FakeQM.retrieve / FakeQM2.retrieve (disk cache and the
    optimized-frame self-consistency assertion)
  - qm/custom.py : OMMMinimizer.minimize, CustomQM.retrieve

External collaborators (moleculekit, rdkit, scipy.optimize, nlopt, OpenMM)
are modelled as abstract function parameters; machine floats are modelled by
elements of a linear ordered field (rationals or reals in the theorems).
Python in-place mutation of molecule objects is modelled by explicit object
identifiers: `Molecule.copy` allocates a fresh identifier, and every write in
the embedded code is applied to the value holding the identifier of the
object the source code writes to.
-/

namespace Param

/-- Modelled from the spec: the per-conformer result record (`QMResult` from
`parameterize.qm.base`, a module not included under src/): scalar energy in
kcal/mol, error flag, and coordinates (spec section 3, "Result record").
Fields not used by the embedded code (dipole, ESP, timing) are omitted. -/
structure QMResult where
  energy : ℚ
  errored : Bool
  coords : List (ℚ × ℚ × ℚ)
  deriving DecidableEq

/-- Shallow model of the moleculekit `Molecule` object as used by
`parameterization/util.py` and `parameterization/fixes.py`.  `objId` models
Python object identity (which concrete object a reference points to). -/
structure Molecule where
  objId : Nat
  name : List String
  element : List String
  atomtype : List String
  bondtype : List String
  bonds : List (Nat × Nat)
  charge : List ℚ
  coords : List (ℚ × ℚ × ℚ)
  deriving DecidableEq

/-- `mol.copy()`: same data, a fresh object. -/
def Molecule.copy (m : Molecule) : Molecule :=
  { m with objId := m.objId + 1 }

/-- `mol.coords = result.coords`: in-place coordinate overwrite
(filterQMResults, util.py line 539). -/
def Molecule.setCoords (m : Molecule) (c : List (ℚ × ℚ × ℚ)) : Molecule :=
  { m with coords := c }

/-- Chiral-center signature: list of (atom index, handedness label) pairs as
returned by `detectChiralCenters` (util.py lines 412-468, delegating to
rdkit).  The rdkit computation is external, so the filter embedding is
parametric in the detection function. -/
abbrev ChiralCenters : Type := List (Nat × String)

/-- Inner result loop of `filterQMResults` (util.py lines 525-548): drop
errored records first; then, when a reference molecule was given, set the
(copied) molecule's coordinates to the record's coordinates, re-detect chiral
centers and drop the record when the signature changed; keep order otherwise.
The second component is a ghost trace of the molecule values handed to the
chirality detector inside the loop (used to verify that only the private copy
is ever mutated). -/
def validLoop (detect : Molecule → ChiralCenters) (molOpt : Option Molecule)
    (init : ChiralCenters) : List QMResult → List QMResult × List Molecule
  | [] => ([], [])
  | r :: rs =>
    if r.errored then
      validLoop detect molOpt init rs
    else
      match molOpt with
      | some mc =>
        let mview := mc.setCoords r.coords
        let rest := validLoop detect molOpt init rs
        if detect mview ≠ init then (rest.1, mview :: rest.2)
        else (r :: rest.1, mview :: rest.2)
      | none =>
        let rest := validLoop detect molOpt init rs
        (r :: rest.1, rest.2)

/-- `np.min([result.energy for result in valid_results])` on the nonempty
list `hd :: tl` (util.py line 552). -/
def minEnergy (hd : QMResult) (tl : List QMResult) : ℚ :=
  tl.foldl (fun a r => min a r.energy) hd.energy

/-- Energy-outlier step of `filterQMResults` (util.py lines 550-564): when at
least one record survived the earlier steps, keep exactly the records whose
energy is less than 20 kcal/mol above the batch minimum; on an empty batch do
nothing. -/
def energyStep : List QMResult → List QMResult
  | [] => []
  | hd :: tl =>
    let minimum := minEnergy hd tl
    (hd :: tl).filter (fun r => r.energy - minimum < 20)

/-- Per-batch loop of `filterQMResults` (util.py lines 522-566), threading
the ghost trace of molecule views given to the chirality detector. -/
def filterGo (detect : Molecule → ChiralCenters) (molOpt : Option Molecule)
    (init : ChiralCenters) : List (List QMResult) → List (List QMResult) × List Molecule
  | [] => ([], [])
  | results :: rest =>
    let v := validLoop detect molOpt init results
    let others := filterGo detect molOpt init rest
    (energyStep v.1 :: others.1, v.2 ++ others.2)

/-- `filterQMResults(all_results, mol=None)` (util.py lines 471-568).  When a
reference molecule is given, its chiral-center signature is computed once on
the caller's object (read only), the molecule is then copied (line 520), and
all subsequent coordinate writes act on the copy. -/
def filterQMResults (detect : Molecule → ChiralCenters)
    (all_results : List (List QMResult)) (molOpt : Option Molecule) :
    List (List QMResult) × List Molecule :=
  let init : ChiralCenters := (molOpt.map detect).getD []
  filterGo detect (molOpt.map Molecule.copy) init all_results

/-- Boolean form of the chirality-preservation test applied to one record. -/
def chiralityOK (detect : Molecule → ChiralCenters) (mcOpt : Option Molecule)
    (init : ChiralCenters) (r : QMResult) : Bool :=
  match mcOpt with
  | some mc => decide (detect (mc.setCoords r.coords) = init)
  | none => true

/-- Concrete scenario of the spec (section 8, "Filter correctness") and of the
doctest of filterQMResults (util.py lines 489-510): 20 records of energy 0,
records 1 and 19 errored, energies -5, 12, 17 at indices 10, 12, 15. -/
def scenarioResults : List QMResult :=
  (List.range 20).map (fun k =>
    { energy := if k = 10 then -5 else if k = 12 then 12 else if k = 15 then 17 else 0
      errored := decide (k = 1 ∨ k = 19)
      coords := [] })

/-- A trivial chirality detector, used where the filter is called without a
reference molecule (the detector is then never invoked). -/
def noDetect : Molecule → ChiralCenters := fun _ => []

/-! ### makeAtomNamesUnique (util.py lines 338-409) -/

/-- Split a name into the part before its trailing digit run and the trailing
digit run, as the regular expression match on the pattern of util.py line 403
does on any string. -/
def splitTrailingDigits (s : String) : String × String :=
  let rev := s.toList.reverse
  let digs := rev.takeWhile Char.isDigit
  (String.mk (rev.drop digs.length).reverse, String.mk digs.reverse)

/-- Value of a decimal digit string (Python `int` on the matched suffix). -/
def digitsToNat (s : String) : Nat :=
  s.toList.foldl (fun a c => 10 * a + (c.toNat - 48)) 0

/-- Inner search of util.py lines 405-406: increment the suffix until the
candidate name is not present (fuel-bounded embedding of the while loop). -/
def freeSuffix (names : List String) (pre : String) : Nat → Nat → Nat
  | 0, suf => suf
  | Nat.succ fuel, suf =>
    if (pre ++ toString suf) ∈ names then freeSuffix names pre fuel (suf + 1) else suf

/-- Indices of the occurrences of a name, as `np.flatnonzero(name == mol.name)`. -/
def indicesOf (s : String) (names : List String) : List Nat :=
  (names.enum.filter (fun p => decide (p.2 = s))).map (fun p => p.1)

/-- While loop of util.py lines 399-407: while the current name occurs more
than once, rename its second occurrence to a fresh name (fuel-bounded). -/
def whileDup (s : String) : Nat → List String → List String
  | 0, names => names
  | Nat.succ fuel, names =>
    if (indicesOf s names).length ≤ 1 then names
    else
      match (indicesOf s names).get? 1 with
      | none => names
      | some j =>
        let split := splitTrailingDigits (names.getD j "")
        let suf0 := if split.2 = "" then 0 else digitsToNat split.2
        let suf := freeSuffix names split.1 (names.length + 1) suf0
        whileDup s fuel (names.set j (split.1 ++ toString suf))

/-- Outer loop of util.py lines 398-407 over the enumerated atom names. -/
def renameNames (names : List String) : List String :=
  (List.range names.length).foldl
    (fun ns i => whileDup (ns.getD i "") (ns.length + 1) ns) names

/-- `makeAtomNamesUnique(mol)` (util.py lines 338-409): work on a copy of the
caller's molecule and return it with the de-duplicated names. -/
def makeAtomNamesUnique (m : Molecule) : Molecule :=
  let mc := m.copy
  { mc with name := renameNames mc.name }

/-! ### fixPhosphateTypes (fixes.py lines 14-162) -/

/-- Number of atoms, the node set of `_getMolecularGraph` (fixes.py line 20). -/
def Molecule.numAtoms (m : Molecule) : Nat := m.element.length

/-- Element attribute of a graph node (fixes.py line 21). -/
def elem (m : Molecule) (i : Nat) : String := m.element.getD i ""

/-- Charge of an atom (fixes.py line 117). -/
def chargeOf (m : Molecule) (i : Nat) : ℚ := m.charge.getD i 0

/-- Keep the first occurrence of each element, preserving order (networkx
adjacency: a repeated edge only updates attributes). -/
def dedupFirst : List Nat → List Nat
  | [] => []
  | a :: l => a :: dedupFirst (l.filter (fun b => decide (b ≠ a)))
termination_by l => l.length
decreasing_by
  simp only [List.length_cons]
  exact Nat.lt_succ_of_le (List.length_filter_le _ _)

/-- Other endpoints of the bonds touching atom `i`, in bond order. -/
def neighborsRaw (m : Molecule) (i : Nat) : List Nat :=
  m.bonds.filterMap (fun b =>
    if b.1 = i then some b.2 else if b.2 = i then some b.1 else none)

/-- `graph.neighbors(i)` on the graph of `_getMolecularGraph`. -/
def neighbors (m : Molecule) (i : Nat) : List Nat :=
  dedupFirst (neighborsRaw m i)

/-- Whether a bond joins atoms `i` and `j` (in either orientation). -/
def bondMatches (i j : Nat) (b : Nat × Nat) : Bool :=
  (decide (b.1 = i) && decide (b.2 = j)) || (decide (b.1 = j) && decide (b.2 = i))

/-- `graph.edges[(i, j)]["index"]` (fixes.py lines 22-23 and 152): the index
of the bond joining `i` and `j`; with repeated bonds the last one wins, as a
repeated `add_edge` overwrites the attribute. -/
def edgeIndex (m : Molecule) (i j : Nat) : Nat :=
  (m.bonds.enum.filter (fun p => bondMatches i j p.2)).foldl (fun _ p => p.1) 0

/-- Stable insertion into a list sorted by descending key. -/
def insertDesc (key : Nat → ℚ) (x : Nat) : List Nat → List Nat
  | [] => [x]
  | y :: ys => if key y < key x then x :: y :: ys else y :: insertDesc key x ys

/-- `sorted(neighbors, key=charge, reverse=True)` (fixes.py line 118):
stable sort by descending key. -/
def sortDesc (key : Nat → ℚ) (l : List Nat) : List Nat :=
  l.foldl (fun acc x => insertDesc key x acc) []

/-- Write the new O atom type and the new P--O bond type (fixes.py lines
141-160; the conditional write of the source only skips rewriting an equal
value, which is the same final state). -/
def setAtomBond (m : Molecule) (p o : Nat) (t bt : String) : Molecule :=
  { m with
    atomtype := m.atomtype.set o t
    bondtype := m.bondtype.set (edgeIndex m p o) bt }

/-- Inner loop of fixPhosphateTypes over the sorted oxygen neighbors of a
phosphorus (fixes.py lines 120-160), threading the `num_double` counter; the
bare `raise ValueError()` is the error case. -/
def assignOxygens (p : Nat) : Molecule → Nat → List Nat → Except Unit Molecule
  | m, _, [] => Except.ok m
  | m, nd, o :: os =>
    let nb := (neighbors m o).length
    if nb = 2 then assignOxygens p (setAtomBond m p o "O.3" "1") nd os
    else if nb = 1 ∧ nd = 0 then assignOxygens p (setAtomBond m p o "O.2" "2") (nd + 1) os
    else if nb = 1 ∧ nd = 1 then assignOxygens p (setAtomBond m p o "O.3" "1") nd os
    else Except.error ()

/-- Body of the node loop of fixPhosphateTypes (fixes.py lines 100-160):
skip non-phosphorus nodes and phosphorus nodes without exactly four
neighbors; otherwise process the oxygen neighbors sorted by descending
charge. -/
def processNode (m : Molecule) (node : Nat) : Except Unit Molecule :=
  if elem m node ≠ "P" then Except.ok m
  else
    let nbrs := neighbors m node
    if nbrs.length ≠ 4 then Except.ok m
    else
      let oxys := nbrs.filter (fun n => decide (elem m n = "O"))
      assignOxygens node m 0 (sortDesc (chargeOf m) oxys)

/-- Sequential processing of the graph nodes with error propagation. -/
def processNodes : Molecule → List Nat → Except Unit Molecule
  | m, [] => Except.ok m
  | m, n :: ns =>
    match processNode m n with
    | Except.error e => Except.error e
    | Except.ok m2 => processNodes m2 ns

/-- `fixPhosphateTypes(molecule)` (fixes.py lines 28-162): copy the caller's
molecule (line 97) and process every node of its molecular graph. -/
def fixPhosphateTypes (m : Molecule) : Except Unit Molecule :=
  let mc := m.copy
  processNodes mc (List.range mc.numAtoms)

/-! ### getDipole (util.py lines 76-97) -/

/-- Molecule data used by `getDipole`: masses, charges and the coordinates of
the current frame, over an arbitrary linear ordered field (the source works
on machine floats). -/
structure DipoleMolecule (α : Type) where
  masses : List α
  charge : List α
  coords : List (α × α × α)

/-- `np.dot(w, v)` for a weight vector against an n-by-3 coordinate array. -/
def weightedSum [Field α] (w : List α) (v : List (α × α × α)) : α × α × α :=
  (w.zip v).foldl
    (fun acc p => (acc.1 + p.1 * p.2.1, acc.2.1 + p.1 * p.2.2.1, acc.2.2 + p.1 * p.2.2.2))
    (0, 0, 0)

/-- `centreOfMass(mol)` (util.py lines 76-77).  The division by the total
mass carries the precondition that the total mass is nonzero; `getDipole`
only reaches it under that guard. -/
def centreOfMass [Field α] (m : DipoleMolecule α) (_h : m.masses.sum ≠ 0) : α × α × α :=
  let s := weightedSum m.masses m.coords
  (s.1 / m.masses.sum, s.2.1 / m.masses.sum, s.2.2 / m.masses.sum)

/-- `scipy.constants.elementary_charge`. -/
def elementary_charge : ℚ := 1.602176634e-19

/-- `scipy.constants.speed_of_light`. -/
def speed_of_light : ℚ := 299792458

/-- Conversion factor of util.py lines 93-95 (e * Ang to Debye). -/
def debyeFactor : ℚ := 1e11 * elementary_charge * speed_of_light

/-- Warning text of util.py line 85. -/
def dipoleWarning : String := "No masses found in Molecule. Cannot calculate dipole."

/-- `getDipole(mol)` (util.py lines 80-97), returning the 4-component dipole
together with the list of emitted warnings.  The Euclidean norm is taken
through a square-root function parameter (`np.linalg.norm` is external). -/
def getDipole [LinearOrderedField α] (sqrtFn : α → α) (m : DipoleMolecule α) :
    (α × α × α × α) × List String :=
  if h : m.masses.sum = 0 then ((0, 0, 0, 0), [dipoleWarning])
  else
    let com := centreOfMass m h
    let centred := m.coords.map (fun p => (p.1 - com.1, p.2.1 - com.2.1, p.2.2 - com.2.2))
    let d := weightedSum m.charge centred
    let mag := sqrtFn (d.1 * d.1 + d.2.1 * d.2.1 + d.2.2 * d.2.2)
    (((debyeFactor : α) * d.1, (debyeFactor : α) * d.2.1,
      (debyeFactor : α) * d.2.2, (debyeFactor : α) * mag), [])

/-! ### Rotamer generation in scanDihedrals (util.py lines 162-190) -/

/-- A dihedral: four atom indices. -/
abbrev Dihedral : Type := Nat × Nat × Nat × Nat

/-- `np.linspace(start, stop, num, endpoint=False)`. -/
def linspaceNoEnd [Field α] (start stop : α) (num : Nat) : List α :=
  (List.range num).map (fun k => start + (Nat.cast k : α) * ((stop - start) / (Nat.cast num : α)))

/-- Multi-frame conformer batch: one entry of `coords` per frame; the frame
payload `F` abstracts the per-frame coordinate array. -/
structure ScanMolecule (F : Type) where
  coords : List F

/-- `new_mol.frame = frame; new_mol.setDihedral(dihedral, angle, ...)`
(util.py lines 186-188): rewrite frame `k` through the external moleculekit
`setDihedral`, leaving other frames alone. -/
def setFrameDihedral (setDih : F → Dihedral → α → F) (d : Dihedral)
    (fs : List F) (k : Nat) (angle : α) : List F :=
  match fs.get? k with
  | some f => fs.set k (setDih f d angle)
  | none => fs

/-- Rotamer batch for one dihedral (util.py lines 179-190): tile the input
coordinates to 36 frames (`np.tile(coords, (1, 1, 36))`), then set the
scanned dihedral of frame `k` to the `k`-th of 36 evenly spaced angles. -/
def buildRotamers [Field α] (pi : α) (setDih : F → Dihedral → α → F)
    (mol : ScanMolecule F) (d : Dihedral) : ScanMolecule F :=
  let numRotamers : Nat := 36
  let tiled := (List.replicate numRotamers mol.coords).flatten
  let angles := linspaceNoEnd (-pi) pi numRotamers
  ⟨angles.enum.foldl (fun fs p => setFrameDihedral setDih d fs p.1 p.2) tiled⟩

/-- Rotamer-generation loop of `scanDihedrals` (util.py lines 173-190): one
36-frame batch per scanned dihedral, in order. -/
def scanRotamers [Field α] (pi : α) (setDih : F → Dihedral → α → F)
    (mol : ScanMolecule F) (dihedrals : List Dihedral) : List (ScanMolecule F) :=
  dihedrals.map (buildRotamers pi setDih mol)

/-! ### Per-job disk cache in retrieve (fake.py 121-196, 301-398; custom.py 358-417) -/

/-- Contents of the job directory: the per-frame `data.pkl` files, keyed by
frame index (the zero-padded subdirectory name). -/
abbrev Cache (R : Type) : Type := List (Nat × R)

/-- Presence test and read of the serialized record for a frame
(`_completed` plus `pickle.load`; serialization round-trip is identity). -/
def cacheLookup : Cache R → Nat → Option R
  | [], _ => none
  | (j, r) :: c, i => if i = j then some r else cacheLookup c i

/-- `pickle.dump(result, fd)`: write the record for a frame. -/
def cacheStore (c : Cache R) (i : Nat) (r : R) : Cache R := (i, r) :: c

/-- Outcome of one `retrieve` call: the returned records, the job directory
afterwards, the frames for which a "loading" event was logged, and the
frames that were freshly computed. -/
structure RetrieveOut (R : Type) where
  results : List R
  cache : Cache R
  loads : List Nat
  computes : List Nat
  deriving DecidableEq

/-- The frame loop shared by `FakeQM.retrieve` (fake.py lines 121-196),
`FakeQM2.retrieve` (fake.py lines 301-398) and `CustomQM.retrieve`
(custom.py lines 358-417): per frame, if the completion sentinel exists,
deserialize the record and log a loading event; otherwise run the
backend-specific fresh computation (abstracted by `fresh`) and serialize
its record. -/
def retrieveGo (fresh : Nat → R) : Cache R → List Nat → RetrieveOut R
  | c, [] => ⟨[], c, [], []⟩
  | c, i :: is =>
    match cacheLookup c i with
    | some r =>
      let o := retrieveGo fresh c is
      ⟨r :: o.results, o.cache, i :: o.loads, o.computes⟩
    | none =>
      let r := fresh i
      let o := retrieveGo fresh (cacheStore c i r) is
      ⟨r :: o.results, o.cache, o.loads, i :: o.computes⟩

/-- `FakeQM.retrieve` (fake.py lines 121-196); `fresh` abstracts the
FFEvaluate/nlopt computation of an uncached frame. -/
def fakeRetrieve (fresh : Nat → R) (numFrames : Nat) (c : Cache R) : RetrieveOut R :=
  retrieveGo fresh c (List.range numFrames)

/-- `FakeQM2.retrieve` (fake.py lines 301-398); `fresh` abstracts the OpenMM
computation of an uncached frame. -/
def fakeQM2Retrieve (fresh : Nat → R) (numFrames : Nat) (c : Cache R) : RetrieveOut R :=
  retrieveGo fresh c (List.range numFrames)

/-- `CustomQM.retrieve` (custom.py lines 358-417); `fresh` abstracts the
calculator/minimizer computation of an uncached frame. -/
def customRetrieve (fresh : Nat → R) (numFrames : Nat) (c : Cache R) : RetrieveOut R :=
  retrieveGo fresh c (List.range numFrames)

/-! ### OMMMinimizer.minimize (custom.py lines 110-207) -/

/-- Result of one `scipy.optimize.minimize` run: the point and the final
jacobian (`result.x`, `result.jac`). -/
structure OptResult (α : Type) where
  x : List α
  jac : List α
  deriving DecidableEq

/-- `np.abs(jac).max()` (total on the empty list with value 0; every actual
jacobian is nonempty). -/
def maxAbs [LinearOrderedField α] (l : List α) : α :=
  l.foldl (fun a b => max a |b|) 0

/-- Keep the run with the strictly smaller max force (custom.py lines
172-174 and 187-189); `none` models the initial `best_force = inf`. -/
def updateBest [LinearOrderedField α] (best : Option (OptResult α × α))
    (r : OptResult α) (f : α) : Option (OptResult α × α) :=
  match best with
  | none => some (r, f)
  | some (br, bf) => if f < bf then some (r, f) else some (br, bf)

/-- State left by the attempt loop: the best run, plus ghost traces of every
L-BFGS run (with its max force) and of every start point handed to the
optimizer. -/
structure LoopOut (α : Type) where
  best : Option (OptResult α × α)
  runs : List (OptResult α × α)
  starts : List (List α)
  deriving DecidableEq

/-- Attempt loop of custom.py lines 162-192: each attempt restarts
`scipy.optimize.minimize` (abstracted by `M`, which sees the system the
simulation was built from) from the original coordinates, and when the max
force still exceeds the tolerance it continues once from the point the
attempt just produced; the loop stops early once the latest max force is
within tolerance. -/
def ommLoop [LinearOrderedField α] (M : List F → List α → OptResult α) (sys : List F)
    (x0 : List α) (tol : α) :
    Nat → Option (OptResult α × α) → List (OptResult α × α) → List (List α) → LoopOut α
  | 0, best, runs, starts => ⟨best, runs, starts⟩
  | Nat.succ n, best, runs, starts =>
    let r1 := M sys x0
    let f1 := maxAbs r1.jac
    let best1 := updateBest best r1 f1
    if tol < f1 then
      let r2 := M sys r1.x
      let f2 := maxAbs r2.jac
      let best2 := updateBest best1 r2 f2
      let runs2 := runs ++ [(r1, f1), (r2, f2)]
      let starts2 := starts ++ [x0, r1.x]
      if f2 ≤ tol then ⟨best2, runs2, starts2⟩
      else ommLoop M sys x0 tol n best2 runs2 starts2
    else ⟨best1, runs ++ [(r1, f1)], starts ++ [x0]⟩

/-- `system.removeForce(i)`. -/
def removeForce (s : List F) (i : Nat) : List F := s.take i ++ s.drop (i + 1)

/-- The four coordinate rows `coords[dihedral]` (custom.py line 121). -/
def dihedralRows [LinearOrderedField α] (coords : List (α × α × α)) (d : Dihedral) :
    List (α × α × α) :=
  [coords.getD d.1 (0, 0, 0), coords.getD d.2.1 (0, 0, 0),
   coords.getD d.2.2.1 (0, 0, 0), coords.getD d.2.2.2 (0, 0, 0)]

/-- `coords.ravel()` / `reshape(-1)` on an n-by-3 array. -/
def flatten3 : List (α × α × α) → List α
  | [] => []
  | p :: ps => p.1 :: p.2.1 :: p.2.2 :: flatten3 ps

/-- Coordinates of the retained best run (`best_result.x`). -/
def bestX : Option (OptResult α × α) → List α
  | some (br, _) => br.x
  | none => []

/-- Whether the non-convergence warning fires (`best_force > force_tolerance`,
custom.py lines 194-199). -/
def bestWarned [LinearOrderedField α] (tol : α) : Option (OptResult α × α) → Bool
  | some (_, bf) => decide (tol < bf)
  | none => true

/-- Full observable outcome of one `OMMMinimizer.minimize` call. -/
structure MinimizeTrace (α : Type) (F : Type) where
  coordsOut : List α
  warned : Bool
  system : List F
  best : Option (OptResult α × α)
  runs : List (OptResult α × α)
  starts : List (List α)

/-- `OMMMinimizer.minimize(coords, restrained_dihedrals)` (custom.py lines
110-207): when the restrained-dihedral list is nonempty, build one torsion
restraint force holding every listed dihedral at its initial angle and
append it to the shared system; run the L-BFGS attempt loop with tolerance
0.1 kcal/mol/A and at most 50 attempts; warn when the best observed max
force still exceeds the tolerance; remove the added force indices in reverse
order; return the best run's coordinates.  `dihAngle` abstracts moleculekit's
`dihedralAngle`, `mkRestraint` the OpenMM `PeriodicTorsionForce`
construction, and `M` a `scipy.optimize.minimize` L-BFGS-B run against the
simulation built from the given system. -/
def ommMinimize [LinearOrderedField α]
    (dihAngle : List (α × α × α) → α)
    (mkRestraint : List (Dihedral × α) → F)
    (M : List F → List α → OptResult α)
    (sys : List F) (coords : List (α × α × α)) (restrained : List Dihedral) :
    MinimizeTrace α F :=
  let forceidx : List Nat := if restrained ≠ [] then [sys.length] else []
  let sysAdd : List F :=
    if restrained ≠ [] then
      sys ++ [mkRestraint (restrained.map (fun d => (d, dihAngle (dihedralRows coords d))))]
    else sys
  let x0 := flatten3 coords
  let out := ommLoop M sysAdd x0 ((1 : α) / 10) 50 none [] []
  let sysFinal := forceidx.reverse.foldl removeForce sysAdd
  ⟨bestX out.best, bestWarned ((1 : α) / 10) out.best, sysFinal, out.best, out.runs, out.starts⟩

/-- Follows the spec's words (spec.md section 4.1): gradient-based (L-BFGS)
minimization "retried up to 50 times from the best intermediate point if the
max force-component does not fall below a tolerance", the run with smallest
observed max force retained.  Each retry is one optimizer run starting from
the best point found so far. -/
def specRetryFromBest [LinearOrderedField α] (M : List F → List α → OptResult α)
    (sys : List F) (tol : α) :
    Nat → Option (OptResult α × α) → List α → Option (OptResult α × α)
  | 0, best, _ => best
  | Nat.succ n, best, start =>
    let r := M sys start
    let f := maxAbs r.jac
    let best1 := updateBest best r f
    if f ≤ tol then best1
    else
      match best1 with
      | some (br, _) => specRetryFromBest M sys tol n best1 br.x
      | none => best1

/-- Minimization following the spec's words, returning the retained
coordinates and whether a warning is due (tolerance never reached). -/
def specMinimize [LinearOrderedField α] (M : List F → List α → OptResult α)
    (sys : List F) (coords : List (α × α × α)) : List α × Bool :=
  match specRetryFromBest M sys ((1 : α) / 10) 50 none (flatten3 coords) with
  | some (br, bf) => (br.x, decide ((1 : α) / 10 < bf))
  | none => ([], true)

/-! ### FakeQM optimized-frame self-consistency (fake.py lines 143-175) -/

/-- `x.reshape((-1, 3))` on a flat coordinate vector. -/
def chunk3 : List α → List (α × α × α)
  | a :: b :: c :: rest => (a, b, c) :: chunk3 rest
  | _ => []

/-- Outcome of `opt.optimize(x0)` together with `opt.last_optimum_value()`
for a configured nlopt COBYLA optimizer. -/
structure NloptOut (α : Type) where
  x : List α
  lastOptimumValue : α

/-- Optimized-frame computation of `FakeQM.retrieve` (fake.py lines
143-175): minimize the force-field energy (`ffTotal` abstracts
`FFEvaluate.calculateEnergies(...)['total']`) over the flattened
coordinates through the configured optimizer `opt` (nlopt COBYLA with the
dihedral equality constraints), then recompute the energy at the returned
coordinates.  Returns (recomputed energy, optimized coordinates, the
optimizer's reported last optimum value). -/
def fakeOptimizedFrame [LinearOrderedField α]
    (ffTotal : List (α × α × α) → α)
    (opt : (List α → α) → List α → NloptOut α)
    (coords0 : List (α × α × α)) : α × List (α × α × α) × α :=
  let objective := fun x => ffTotal (chunk3 x)
  let out := opt objective (flatten3 coords0)
  let coords := chunk3 out.x
  let energy := ffTotal coords
  (energy, coords, out.lastOptimumValue)

/-- A concrete deterministic L-BFGS stand-in: from any start point it moves
every coordinate up by one and reports a jacobian whose magnitude shrinks as
the start point grows, so each run started further along converges closer. -/
def exM : List Unit → List ℚ → OptResult ℚ :=
  fun _ x => ⟨x.map (fun t => t + 1), [3 - x.headD 0]⟩

/-- An empty molecule value, used to instantiate witnesses. -/
def emptyMol : Molecule := Molecule.mk 0 [] [] [] [] [] [] []

/-- The molecule data the node loop reads but never writes: bond list,
elements and charges (the graph is built once), plus the lengths of the
mutable type arrays. -/
def SameShape (m0 m : Molecule) : Prop :=
  m.bonds = m0.bonds ∧ m.element = m0.element ∧ m.charge = m0.charge ∧
    m.atomtype.length = m0.atomtype.length ∧ m.bondtype.length = m0.bondtype.length

/-- The oxygen neighbors of a node (fixes.py lines 111-113). -/
def oxyNbrs (m : Molecule) (p : Nat) : List Nat :=
  (neighbors m p).filter (fun n => decide (elem m n = "O"))

/-- The oxygen neighbors sorted by descending charge (fixes.py line 118). -/
def sortedOxys (m : Molecule) (p : Nat) : List Nat :=
  sortDesc (chargeOf m) (oxyNbrs m p)

/-- The oxygen that receives the P--O double bond: the first singly-bonded
oxygen in descending-charge order. -/
def chosenO (m : Molecule) (p : Nat) : Option Nat :=
  (sortedOxys m p).find? (fun o => decide ((neighbors m o).length = 1))

/-- The double-bond target while the loop runs: nothing once `num_double`
is 1, otherwise the first terminal oxygen of the remaining list. -/
def chosenIn (m0 : Molecule) (nd : Nat) (os : List Nat) : Option Nat :=
  if nd = 0 then os.find? (fun o => decide ((neighbors m0 o).length = 1)) else none

/-- An oxygen the loop accepts: one or two bonds. -/
def GoodOxy (m0 : Molecule) (o : Nat) : Prop :=
  (neighbors m0 o).length = 1 ∨ (neighbors m0 o).length = 2

/-- A phosphorus atom with exactly four neighbors (the nodes fixPhosphateTypes
processes). -/
def P4 (m0 : Molecule) (p : Nat) : Prop :=
  elem m0 p = "P" ∧ (neighbors m0 p).length = 4

/-- The final assignment fixPhosphateTypes performs on one oxygen neighbor
of a processed phosphorus. -/
def Assigned (m0 mf : Molecule) (p o : Nat) : Prop :=
  ((neighbors m0 o).length = 2 →
    mf.atomtype[o]? = some "O.3" ∧ mf.bondtype[edgeIndex m0 p o]? = some "1")
  ∧ ((neighbors m0 o).length = 1 →
     (chosenO m0 p = some o →
        mf.atomtype[o]? = some "O.2" ∧ mf.bondtype[edgeIndex m0 p o]? = some "2")
     ∧ (chosenO m0 p ≠ some o →
        mf.atomtype[o]? = some "O.3" ∧ mf.bondtype[edgeIndex m0 p o]? = some "1"))

/-- A concrete phosphate group: one phosphorus bonded to four terminal
oxygens of distinct charges. -/
def phosMol : Molecule :=
  Molecule.mk 0 [] ["P", "O", "O", "O", "O"] ["P.3", "O.3", "O.3", "O.3", "O.3"]
    ["1", "1", "1", "1"] [(0, 1), (0, 2), (0, 3), (0, 4)] [2, -1, -2, -3, 0] []

/-- The phosphate group after fixPhosphateTypes: the most positive terminal
oxygen (atom 4) carries the double bond. -/
def m2Phos : Molecule :=
  Molecule.mk 1 [] ["P", "O", "O", "O", "O"] ["P.3", "O.3", "O.3", "O.3", "O.2"]
    ["1", "1", "1", "2"] [(0, 1), (0, 2), (0, 3), (0, 4)] [2, -1, -2, -3, 0] []

/-! ### Lemmas about the result filter -/

lemma validLoop_fst (detect : Molecule → ChiralCenters) (mcOpt : Option Molecule)
    (init : ChiralCenters) (b : List QMResult) :
    (validLoop detect mcOpt init b).1 =
      (b.filter (fun r => !r.errored)).filter (chiralityOK detect mcOpt init) := by
  induction b with
  | nil => rfl
  | cons r rs ih =>
    by_cases he : r.errored
    · simp [validLoop, he, ih]
    · cases mcOpt with
      | none => simp [validLoop, he, ih, chiralityOK]
      | some mc =>
        by_cases hne : detect (mc.setCoords r.coords) = init
        · simp [validLoop, he, hne, ih, chiralityOK]
        · simp [validLoop, he, hne, ih, chiralityOK]

lemma filterGo_fst (detect : Molecule → ChiralCenters) (mcOpt : Option Molecule)
    (init : ChiralCenters) (bs : List (List QMResult)) :
    (filterGo detect mcOpt init bs).1 =
      bs.map (fun b => energyStep (validLoop detect mcOpt init b).1) := by
  induction bs with
  | nil => rfl
  | cons b rest ih => simp [filterGo, ih]

lemma energyStep_sublist (l : List QMResult) : List.Sublist (energyStep l) l := by
  cases l with
  | nil => simp [energyStep]
  | cons hd tl => exact List.filter_sublist _

lemma filterQMResults_fst (detect : Molecule → ChiralCenters)
    (batches : List (List QMResult)) (molOpt : Option Molecule) :
    (filterQMResults detect batches molOpt).1 =
      batches.map (fun b =>
        energyStep
          (validLoop detect (molOpt.map Molecule.copy) ((molOpt.map detect).getD []) b).1) := by
  unfold filterQMResults
  exact filterGo_fst _ _ _ _

/-- C2: filterQMResults returns exactly one output batch per input batch,
each output batch is a subsequence of the corresponding input batch, and the
steps are applied in the fixed order: errored records dropped first, then
chirality-changed records (only when a reference molecule is given), then the
energy outliers, so the chirality baseline and the minimum energy only see
records surviving the earlier steps. -/
theorem filterQMResults_structure (detect : Molecule → ChiralCenters)
    (molOpt : Option Molecule) (batches : List (List QMResult)) :
    ((filterQMResults detect batches molOpt).1.length = batches.length)
    ∧ (∀ i : Nat, List.Sublist ((filterQMResults detect batches molOpt).1.getD i [])
        (batches.getD i []))
    ∧ ((filterQMResults detect batches molOpt).1 =
        batches.map (fun b =>
          energyStep ((b.filter (fun r => !r.errored)).filter
            (chiralityOK detect (molOpt.map Molecule.copy) ((molOpt.map detect).getD []))))) := by
  have hfst := filterQMResults_fst detect batches molOpt
  refine ⟨?_, ?_, ?_⟩
  · rw [hfst]; exact List.length_map _ _
  · intro i
    rw [hfst]
    rcases h : batches[i]? with _ | b
    · have h1 : (batches.map (fun b =>
          energyStep
            (validLoop detect (molOpt.map Molecule.copy) ((molOpt.map detect).getD []) b).1))[i]?
          = none := by
        simp only [List.getElem?_map, h, Option.map_none']
      rw [List.getD_eq_getElem?_getD, List.getD_eq_getElem?_getD, h, h1]
    · have h1 : (batches.map (fun b =>
          energyStep
            (validLoop detect (molOpt.map Molecule.copy) ((molOpt.map detect).getD []) b).1))[i]?
          = some (energyStep
            (validLoop detect (molOpt.map Molecule.copy) ((molOpt.map detect).getD []) b).1) := by
        simp only [List.getElem?_map, h, Option.map_some']
      rw [List.getD_eq_getElem?_getD, List.getD_eq_getElem?_getD, h, h1]
      simp only [Option.getD_some]
      have h2 : List.Sublist
          ((validLoop detect (molOpt.map Molecule.copy) ((molOpt.map detect).getD []) b).1) b := by
        rw [validLoop_fst]
        exact List.Sublist.trans (List.filter_sublist _) (List.filter_sublist _)
      exact List.Sublist.trans (energyStep_sublist _) h2
  · rw [hfst]
    refine List.map_congr_left (fun b _ => ?_)
    rw [validLoop_fst]

/-- C1 counterexample: the claim states that a record exactly 20 kcal/mol
above the batch minimum is kept, but the code keeps only records with
relative energy strictly below 20 (util.py line 557), so the two-record
batch with energies 0 and 20 filters down to the single record of energy 0
instead of keeping both. -/
theorem filterQMResults_drops_at_20 :
    (filterQMResults noDetect
        [[⟨0, false, []⟩, ⟨20, false, []⟩]] none).1 = [[⟨0, false, []⟩]] := by
  with_unfolding_all decide

/-- C1 (amended): for every batch, if no record survives the error and
chirality steps the energy step is skipped entirely (empty output batch);
otherwise the minimum energy over the survivors is computed and exactly the
records whose energy exceeds that minimum by 20 kcal/mol or more are dropped
(a record exactly 20 kcal/mol above the minimum is dropped); in the spec's
concrete scenario (20 records of energy 0, indices 1 and 19 errored, then
energies -5, 12, 17 at indices 10, 12, 15) filtering returns 17 records. -/
theorem filterQMResults_energy_cutoff :
    (∀ (detect : Molecule → ChiralCenters) (molOpt : Option Molecule)
        (batches : List (List QMResult)) (i : Nat),
      ((filterQMResults detect batches molOpt).1.getD i [] =
        energyStep (validLoop detect (molOpt.map Molecule.copy)
          ((molOpt.map detect).getD []) (batches.getD i [])).1)
      ∧ ((validLoop detect (molOpt.map Molecule.copy)
            ((molOpt.map detect).getD []) (batches.getD i [])).1 = [] →
          (filterQMResults detect batches molOpt).1.getD i [] = [])
      ∧ (∀ hd tl,
          (validLoop detect (molOpt.map Molecule.copy)
            ((molOpt.map detect).getD []) (batches.getD i [])).1 = hd :: tl →
          ∀ r, r ∈ (filterQMResults detect batches molOpt).1.getD i [] ↔
            r ∈ (validLoop detect (molOpt.map Molecule.copy)
              ((molOpt.map detect).getD []) (batches.getD i [])).1 ∧
            r.energy - minEnergy hd tl < 20))
    ∧ (filterQMResults noDetect [scenarioResults] none).1.map List.length = [17] := by
  constructor
  · intro detect molOpt batches i
    have hout : (filterQMResults detect batches molOpt).1.getD i [] =
        energyStep (validLoop detect (molOpt.map Molecule.copy)
          ((molOpt.map detect).getD []) (batches.getD i [])).1 := by
      rw [filterQMResults_fst]
      rcases h : batches[i]? with _ | b
      · have h1 : (batches.map (fun b =>
            energyStep
              (validLoop detect (molOpt.map Molecule.copy)
                ((molOpt.map detect).getD []) b).1))[i]? = none := by
          simp only [List.getElem?_map, h, Option.map_none']
        rw [List.getD_eq_getElem?_getD, List.getD_eq_getElem?_getD, h, h1]
        rfl
      · have h1 : (batches.map (fun b =>
            energyStep
              (validLoop detect (molOpt.map Molecule.copy)
                ((molOpt.map detect).getD []) b).1))[i]? = some (energyStep
              (validLoop detect (molOpt.map Molecule.copy)
                ((molOpt.map detect).getD []) b).1) := by
          simp only [List.getElem?_map, h, Option.map_some']
        rw [List.getD_eq_getElem?_getD, List.getD_eq_getElem?_getD, h, h1]
        simp only [Option.getD_some]
    refine ⟨hout, ?_, ?_⟩
    · intro hv
      rw [hout, hv]
      rfl
    · intro hd tl hv r
      have he : energyStep (hd :: tl) =
          (hd :: tl).filter (fun r => decide (r.energy - minEnergy hd tl < 20)) := rfl
      rw [hout, hv, he, List.mem_filter]
      simp only [decide_eq_true_eq]
  · set_option maxRecDepth 20000 in with_unfolding_all decide

/-- C1 witness: the amended theorem applied to the one-record batch of
energy 0; the record is 0 kcal/mol above the minimum, so it is kept. -/
theorem filterQMResults_energy_cutoff_witness :
    (⟨0, false, []⟩ : QMResult) ∈
        (filterQMResults noDetect [[⟨0, false, []⟩]] none).1.getD 0 [] ↔
      (⟨0, false, []⟩ : QMResult) ∈
        (validLoop noDetect ((none : Option Molecule).map Molecule.copy)
          (((none : Option Molecule).map noDetect).getD [])
          ([[(⟨0, false, []⟩ : QMResult)]].getD 0 [])).1 ∧
      (⟨0, false, []⟩ : QMResult).energy - minEnergy ⟨0, false, []⟩ [] < 20 :=
  ((filterQMResults_energy_cutoff.1 noDetect none [[⟨0, false, []⟩]] 0).2.2
    ⟨0, false, []⟩ [] (by with_unfolding_all decide) ⟨0, false, []⟩)

/-! ### Lemmas about the per-job disk cache -/

lemma cacheLookup_store (c : Cache R) (i : Nat) (r : R) (j : Nat) :
    cacheLookup (cacheStore c i r) j = if j = i then some r else cacheLookup c j := rfl

lemma retrieveGo_cache_mono (fresh : Nat → R) :
    ∀ (is : List Nat) (c : Cache R) (j : Nat) (r : R), cacheLookup c j = some r →
      cacheLookup (retrieveGo fresh c is).cache j = some r := by
  intro is
  induction is with
  | nil => intro c j r h; exact h
  | cons i is ih =>
    intro c j r h
    rcases hc : cacheLookup c i with _ | rc
    · simp only [retrieveGo, hc]
      refine ih _ _ _ ?_
      rw [cacheLookup_store]
      rcases eq_or_ne j i with rfl | hne
      · rw [h] at hc; exact absurd hc (by simp)
      · rw [if_neg hne]; exact h
    · simp only [retrieveGo, hc]
      exact ih _ _ _ h

lemma retrieveGo_not_computed (fresh : Nat → R) :
    ∀ (is : List Nat) (c : Cache R) (i : Nat) (r : R), cacheLookup c i = some r →
      i ∉ (retrieveGo fresh c is).computes := by
  intro is
  induction is with
  | nil => intro c i r _ h; simp [retrieveGo] at h
  | cons j is ih =>
    intro c i r h
    rcases hc : cacheLookup c j with _ | rc
    · simp only [retrieveGo, hc, List.mem_cons]
      have hne : i ≠ j := by
        rintro rfl
        rw [h] at hc; exact absurd hc (by simp)
      intro hmem
      rcases hmem with heq | hmem
      · exact hne heq
      · exact ih _ i r (by rw [cacheLookup_store, if_neg hne]; exact h) hmem
    · simp only [retrieveGo, hc]
      exact ih _ _ _ h

lemma retrieveGo_cached (fresh : Nat → R) :
    ∀ (is : List Nat) (k : Nat) (c : Cache R) (i : Nat) (r : R),
      is.get? k = some i → cacheLookup c i = some r →
      (retrieveGo fresh c is).results.get? k = some r ∧
        i ∈ (retrieveGo fresh c is).loads := by
  intro is
  induction is with
  | nil => intro k c i r hk _; exact absurd hk (by simp)
  | cons j is ih =>
    intro k c i r hk h
    rcases k with _ | k
    · simp only [List.get?_cons_zero, Option.some_inj] at hk
      subst hk
      simp only [retrieveGo, h]
      exact ⟨rfl, List.mem_cons_self _ _⟩
    · simp only [List.get?_cons_succ] at hk
      rcases hc : cacheLookup c j with _ | rc
      · have hne : i ≠ j := by
          rintro rfl
          rw [h] at hc; exact absurd hc (by simp)
        have h2 : cacheLookup (cacheStore c j (fresh j)) i = some r := by
          rw [cacheLookup_store, if_neg hne]; exact h
        have := ih k _ i r hk h2
        simp only [retrieveGo, hc]
        exact this
      · have := ih k c i r hk h
        simp only [retrieveGo, hc, List.get?_cons_succ, List.mem_cons]
        exact ⟨this.1, Or.inr this.2⟩

lemma retrieveGo_twice (fresh : Nat → R) :
    ∀ (is : List Nat) (c : Cache R),
      (retrieveGo fresh (retrieveGo fresh c is).cache is).results =
          (retrieveGo fresh c is).results ∧
        (retrieveGo fresh (retrieveGo fresh c is).cache is).computes = [] := by
  intro is
  induction is with
  | nil => intro c; exact ⟨rfl, rfl⟩
  | cons i is ih =>
    intro c
    rcases hc : cacheLookup c i with _ | r
    · have hstore : cacheLookup (cacheStore c i (fresh i)) i = some (fresh i) := by
        rw [cacheLookup_store, if_pos rfl]
      have hmono := retrieveGo_cache_mono fresh is _ i (fresh i) hstore
      have hIH := ih (cacheStore c i (fresh i))
      simp only [retrieveGo, hc, hmono, hIH.1, hIH.2]
      exact ⟨trivial, trivial⟩
    · have hmono := retrieveGo_cache_mono fresh is c i r hc
      have hIH := ih c
      simp only [retrieveGo, hc, hmono, hIH.1, hIH.2]
      exact ⟨trivial, trivial⟩

/-- C3: for each backend (FakeQM, FakeQM2, CustomQM), a frame whose job
subdirectory already holds the serialized record is answered from the cache:
the cached record is returned at that frame's position, a loading event is
logged, and the frame is not recomputed; consequently running retrieve a
second time on the job directory left by a first run returns the identical
result records and computes nothing. -/
theorem retrieve_cache_idempotent (R : Type) (fresh : Nat → R) (n : Nat) (c : Cache R) :
    ((∀ i r, i < n → cacheLookup c i = some r →
        (fakeRetrieve fresh n c).results.get? i = some r ∧
          i ∈ (fakeRetrieve fresh n c).loads ∧
          i ∉ (fakeRetrieve fresh n c).computes)
      ∧ (fakeRetrieve fresh n (fakeRetrieve fresh n c).cache).results =
          (fakeRetrieve fresh n c).results
      ∧ (fakeRetrieve fresh n (fakeRetrieve fresh n c).cache).computes = [])
    ∧ ((∀ i r, i < n → cacheLookup c i = some r →
        (fakeQM2Retrieve fresh n c).results.get? i = some r ∧
          i ∈ (fakeQM2Retrieve fresh n c).loads ∧
          i ∉ (fakeQM2Retrieve fresh n c).computes)
      ∧ (fakeQM2Retrieve fresh n (fakeQM2Retrieve fresh n c).cache).results =
          (fakeQM2Retrieve fresh n c).results
      ∧ (fakeQM2Retrieve fresh n (fakeQM2Retrieve fresh n c).cache).computes = [])
    ∧ ((∀ i r, i < n → cacheLookup c i = some r →
        (customRetrieve fresh n c).results.get? i = some r ∧
          i ∈ (customRetrieve fresh n c).loads ∧
          i ∉ (customRetrieve fresh n c).computes)
      ∧ (customRetrieve fresh n (customRetrieve fresh n c).cache).results =
          (customRetrieve fresh n c).results
      ∧ (customRetrieve fresh n (customRetrieve fresh n c).cache).computes = []) := by
  have hone : ∀ i r, i < n → cacheLookup c i = some r →
      (retrieveGo fresh c (List.range n)).results.get? i = some r ∧
        i ∈ (retrieveGo fresh c (List.range n)).loads ∧
        i ∉ (retrieveGo fresh c (List.range n)).computes := by
    intro i r hi h
    have hk : (List.range n).get? i = some i := List.get?_range hi
    have h1 := retrieveGo_cached fresh (List.range n) i c i r hk h
    exact ⟨h1.1, h1.2, retrieveGo_not_computed fresh (List.range n) c i r h⟩
  have htwice := retrieveGo_twice fresh (List.range n) c
  exact ⟨⟨hone, htwice.1, htwice.2⟩, ⟨hone, htwice.1, htwice.2⟩, ⟨hone, htwice.1, htwice.2⟩⟩

/-- C3 witness: one frame, already cached with record 7; retrieve returns
the cached record, logs a loading event, and computes nothing. -/
theorem retrieve_cache_idempotent_witness :
    (fakeRetrieve (fun i => i) 1 [(0, 7)]).results.get? 0 = some 7 ∧
      0 ∈ (fakeRetrieve (fun i => i) 1 [(0, 7)]).loads ∧
      0 ∉ (fakeRetrieve (fun i => i) 1 [(0, 7)]).computes :=
  (retrieve_cache_idempotent Nat (fun i => i) 1 [(0, 7)]).1.1 0 7 (by decide) (by decide)

/-! ### Lemmas about rotamer generation -/

lemma get?_append_len (pre : List F) (y : F) (suf : List F) :
    (pre ++ y :: suf).get? pre.length = some y := by
  induction pre with
  | nil => rfl
  | cons p ps ih => simpa using ih

lemma set_append_len (pre : List F) (x y : F) (suf : List F) :
    (pre ++ y :: suf).set pre.length x = pre ++ x :: suf := by
  induction pre with
  | nil => rfl
  | cons p ps ih =>
    simp only [List.cons_append, List.length_cons, List.set_cons_succ, ih]

lemma flatten_replicate_singleton (n : Nat) (f0 : F) :
    (List.replicate n [f0]).flatten = List.replicate n f0 := by
  induction n with
  | zero => rfl
  | succ n ih => simp [List.replicate_succ, ih]

lemma foldSet_go [Field α] (setDih : F → Dihedral → α → F) (d : Dihedral) (f0 : F) :
    ∀ (angles : List α) (pre : List F),
      ((angles.enumFrom pre.length).foldl
          (fun fs p => setFrameDihedral setDih d fs p.1 p.2)
          (pre ++ List.replicate angles.length f0))
        = pre ++ angles.map (fun a => setDih f0 d a) := by
  intro angles
  induction angles with
  | nil => intro pre; simp
  | cons a as ih =>
    intro pre
    rw [List.enumFrom_cons, List.foldl_cons]
    have hstep : setFrameDihedral setDih d
        (pre ++ List.replicate (a :: as).length f0) pre.length a
        = (pre ++ [setDih f0 d a]) ++ List.replicate as.length f0 := by
      unfold setFrameDihedral
      rw [List.length_cons, List.replicate_succ, get?_append_len]
      show (pre ++ f0 :: List.replicate as.length f0).set pre.length (setDih f0 d a)
          = (pre ++ [setDih f0 d a]) ++ List.replicate as.length f0
      rw [set_append_len]
      simp
    rw [hstep]
    have hlen : pre.length + 1 = (pre ++ [setDih f0 d a]).length := by simp
    rw [hlen, ih (pre ++ [setDih f0 d a])]
    simp

lemma buildRotamers_single [Field α] (pi : α) (setDih : F → Dihedral → α → F)
    (mol : ScanMolecule F) (f0 : F) (d : Dihedral) (hmol : mol.coords = [f0]) :
    (buildRotamers pi setDih mol d).coords =
      (linspaceNoEnd (-pi) pi 36).map (fun a => setDih f0 d a) := by
  simp only [buildRotamers, hmol]
  rw [flatten_replicate_singleton]
  have hlen : (36 : Nat) = (linspaceNoEnd (-pi) pi 36).length := by
    unfold linspaceNoEnd
    rw [List.length_map, List.length_range]
  rw [hlen]
  have := foldSet_go setDih d f0 (linspaceNoEnd (-pi) pi 36) []
  simpa [List.enum] using this

/-- C4: for every scanned dihedral, the rotamer-generation loop of
scanDihedrals builds one batch per dihedral, each batch holding exactly 36
conformer frames, and the k-th frame is the input pose with the scanned
dihedral set to the angle -pi + k * (2*pi/36), i.e. the 36 target angles are
uniformly spaced over [-pi, pi) starting at -pi, one conformer frame per
angle. -/
theorem scanDihedrals_rotamer_grid (F : Type) (setDih : F → Dihedral → ℝ → F)
    (mol : ScanMolecule F) (f0 : F) (dihedrals : List Dihedral)
    (hmol : mol.coords = [f0]) :
    (∀ d ∈ dihedrals,
      buildRotamers Real.pi setDih mol d ∈ scanRotamers Real.pi setDih mol dihedrals)
    ∧ ∀ d : Dihedral,
        (buildRotamers Real.pi setDih mol d).coords.length = 36
        ∧ ∀ k : Fin 36,
            (buildRotamers Real.pi setDih mol d).coords.get? (k : Nat) =
              some (setDih f0 d (-Real.pi + (k : ℝ) * (2 * Real.pi / 36))) := by
  constructor
  · intro d hd
    exact List.mem_map_of_mem _ hd
  · intro d
    have hb := buildRotamers_single Real.pi setDih mol f0 d hmol
    constructor
    · rw [hb, List.length_map]
      unfold linspaceNoEnd
      rw [List.length_map, List.length_range]
    · intro k
      rw [hb, List.get?_eq_getElem?, List.getElem?_map]
      have hang : (linspaceNoEnd (-Real.pi) Real.pi 36)[(k : Nat)]? =
          some (-Real.pi + (k : ℝ) * ((Real.pi - -Real.pi) / (36 : ℝ))) := by
        unfold linspaceNoEnd
        rw [List.getElem?_map, List.getElem?_range k.isLt]
        rfl
      rw [hang]
      simp only [Option.map_some']
      have harith : (-Real.pi + (k : ℝ) * ((Real.pi - -Real.pi) / (36 : ℝ)))
          = -Real.pi + (k : ℝ) * (2 * Real.pi / 36) := by ring
      rw [harith]

/-- C4 witness: the rotamer-grid theorem applied to a concrete single-frame
molecule with an opaque frame payload. -/
theorem scanDihedrals_rotamer_grid_witness :
    (buildRotamers Real.pi (fun f _ _ => f) (⟨[()]⟩ : ScanMolecule Unit)
      (0, 1, 2, 3)).coords.length = 36 :=
  ((scanDihedrals_rotamer_grid Unit (fun f _ _ => f) ⟨[()]⟩ () [] rfl).2 (0, 1, 2, 3)).1

/-! ### System restoration in OMMMinimizer.minimize -/

lemma removeForce_append (l : List F) (x : F) :
    removeForce (l ++ [x]) l.length = l := by
  unfold removeForce
  rw [List.take_left]
  have hdrop : (l ++ [x]).drop (l.length + 1) = [] := by
    have h1 : (l ++ [x]).drop l.length = [x] := List.drop_left l [x]
    have h2 : ((l ++ [x]).drop l.length).drop 1 = [x].drop 1 := by rw [h1]
    rw [List.drop_drop] at h2
    simpa using h2
  rw [hdrop, List.append_nil]

/-- C6: every call to OMMMinimizer.minimize with a nonempty
restrained-dihedral list removes the restraint force it added to the shared
system before returning, so the system's force list after the call equals
the force list before the call: no restraint leaks into subsequent calls on
the same minimizer. -/
theorem ommMinimize_restores_system (α F : Type) [LinearOrderedField α]
    (dihAngle : List (α × α × α) → α) (mkRestraint : List (Dihedral × α) → F)
    (M : List F → List α → OptResult α) (sys : List F) (coords : List (α × α × α))
    (restrained : List Dihedral) (h : restrained ≠ []) :
    (ommMinimize dihAngle mkRestraint M sys coords restrained).system = sys := by
  show (if restrained ≠ [] then [sys.length] else []).reverse.foldl removeForce
      (if restrained ≠ [] then
        sys ++ [mkRestraint (restrained.map (fun d => (d, dihAngle (dihedralRows coords d))))]
      else sys) = sys
  rw [if_pos h, if_pos h]
  simp only [List.reverse_singleton, List.foldl_cons, List.foldl_nil]
  exact removeForce_append sys _

/-- C6 witness: a concrete call with one restrained dihedral on a two-force
system leaves the system unchanged. -/
theorem ommMinimize_restores_system_witness :
    (ommMinimize (fun _ => (0 : ℚ)) (fun _ => 7) (fun _ x => ⟨x, x⟩)
      [3, 4] [(0, 0, 0)] [(0, 1, 2, 3)]).system = [3, 4] :=
  ommMinimize_restores_system ℚ Nat (fun _ => 0) (fun _ => 7) (fun _ x => ⟨x, x⟩)
    [3, 4] [(0, 0, 0)] [(0, 1, 2, 3)] (by decide)

/-! ### getDipole on a zero-mass molecule -/

/-- C7: on a molecule whose total mass is zero, getDipole returns the
4-component zero vector and logs the warning instead of dividing by zero;
the centre-of-mass division is only reached under the guard that the mass
sum is nonzero (the guard is the hypothesis of `centreOfMass`), and in that
case no warning is logged; the function is total, so no input raises. -/
theorem getDipole_zero_mass (α : Type) [LinearOrderedField α] (sqrtFn : α → α)
    (m : DipoleMolecule α) :
    (m.masses.sum = 0 → getDipole sqrtFn m = ((0, 0, 0, 0), [dipoleWarning]))
    ∧ (m.masses.sum ≠ 0 → (getDipole sqrtFn m).2 = []) := by
  constructor
  · intro h
    unfold getDipole
    rw [dif_pos h]
  · intro h
    unfold getDipole
    rw [dif_neg h]

/-- C7 witness: a one-atom molecule of mass zero gets the zero dipole and
the warning. -/
theorem getDipole_zero_mass_witness :
    getDipole (fun q => q) (⟨[0], [1], [(1, 2, 3)]⟩ : DipoleMolecule ℚ) =
      ((0, 0, 0, 0), [dipoleWarning]) :=
  (getDipole_zero_mass ℚ (fun q => q) ⟨[0], [1], [(1, 2, 3)]⟩).1
    (by with_unfolding_all decide)

/-! ### FakeQM self-consistency assertion -/

/-- C9: in FakeQM.retrieve with the optimize flag set, the energy recomputed
by the force-field evaluator on the returned coordinates equals the
optimizer's reported last optimum value, because nlopt reports the objective
value belonging to the point it returns and the objective is the same
deterministic force-field evaluation on the reshaped coordinates; hence the
assertion `opt.last_optimum_value() == result.energy` never fails for an
uncached optimized frame. -/
theorem fakeQM_self_consistency (α : Type) [LinearOrderedField α]
    (ffTotal : List (α × α × α) → α)
    (opt : (List α → α) → List α → NloptOut α)
    (hopt : ∀ f x0, (opt f x0).lastOptimumValue = f (opt f x0).x)
    (coords0 : List (α × α × α)) :
    (fakeOptimizedFrame ffTotal opt coords0).1 =
      (fakeOptimizedFrame ffTotal opt coords0).2.2 := by
  show ffTotal (chunk3 (opt (fun x => ffTotal (chunk3 x)) (flatten3 coords0)).x) =
    (opt (fun x => ffTotal (chunk3 x)) (flatten3 coords0)).lastOptimumValue
  rw [hopt]

/-- C9 witness: the self-consistency theorem at a concrete evaluator and a
trivial optimizer that returns its starting point with the matching
objective value. -/
theorem fakeQM_self_consistency_witness :
    (fakeOptimizedFrame (fun l => ((l.length : ℚ)))
        (fun f x0 => ⟨x0, f x0⟩) [(1, 2, 3)]).1 =
      (fakeOptimizedFrame (fun l => ((l.length : ℚ)))
        (fun f x0 => ⟨x0, f x0⟩) [(1, 2, 3)]).2.2 :=
  fakeQM_self_consistency ℚ (fun l => ((l.length : ℚ)))
    (fun f x0 => ⟨x0, f x0⟩) (fun _ _ => rfl) [(1, 2, 3)]

/-! ### Lemmas about the minimize attempt loop -/

lemma updateBest_ne_none [LinearOrderedField α] (best : Option (OptResult α × α))
    (r : OptResult α) (f : α) : updateBest best r f ≠ none := by
  cases best with
  | none => simp [updateBest]
  | some p =>
    obtain ⟨br0, bf0⟩ := p
    simp only [updateBest]
    split <;> simp

lemma updateBest_inv [LinearOrderedField α] (best : Option (OptResult α × α))
    (r : OptResult α) (f : α) (runs : List (OptResult α × α))
    (h1 : ∀ br bf, best = some (br, bf) → ((br, bf) ∈ runs ∧ ∀ p ∈ runs, bf ≤ p.2))
    (h2 : best = none → runs = []) :
    ∀ br bf, updateBest best r f = some (br, bf) →
      ((br, bf) ∈ runs ++ [(r, f)] ∧ ∀ p ∈ runs ++ [(r, f)], bf ≤ p.2) := by
  intro br bf hup
  cases best with
  | none =>
    have hr : runs = [] := h2 rfl
    subst hr
    simp only [updateBest, Option.some.injEq, Prod.mk.injEq] at hup
    obtain ⟨hbr, hbf⟩ := hup
    subst hbr; subst hbf
    constructor
    · simp
    · intro p hp
      simp only [List.nil_append, List.mem_singleton] at hp
      subst hp
      exact le_refl _
  | some q =>
    obtain ⟨br0, bf0⟩ := q
    obtain ⟨hmem0, hbound0⟩ := h1 br0 bf0 rfl
    simp only [updateBest] at hup
    by_cases hlt : f < bf0
    · rw [if_pos hlt] at hup
      simp only [Option.some.injEq, Prod.mk.injEq] at hup
      obtain ⟨hbr, hbf⟩ := hup
      subst hbr; subst hbf
      constructor
      · exact List.mem_append_right _ (List.mem_singleton_self _)
      · intro p hp
        rcases List.mem_append.mp hp with hp | hp
        · exact le_of_lt (lt_of_lt_of_le hlt (hbound0 p hp))
        · simp only [List.mem_singleton] at hp
          subst hp
          exact le_refl _
    · rw [if_neg hlt] at hup
      simp only [Option.some.injEq, Prod.mk.injEq] at hup
      obtain ⟨hbr, hbf⟩ := hup
      subst hbr; subst hbf
      constructor
      · exact List.mem_append_left _ hmem0
      · intro p hp
        rcases List.mem_append.mp hp with hp | hp
        · exact hbound0 p hp
        · simp only [List.mem_singleton] at hp
          subst hp
          exact le_of_not_lt hlt

lemma ommLoop_best_ne_none [LinearOrderedField α] (M : List F → List α → OptResult α)
    (sys : List F) (x0 : List α) (tol : α) :
    ∀ (n : Nat) (best : Option (OptResult α × α)) (runs : List (OptResult α × α))
      (starts : List (List α)), (best ≠ none ∨ 0 < n) →
      (ommLoop M sys x0 tol n best runs starts).best ≠ none := by
  intro n
  induction n with
  | zero =>
    intro best runs starts h
    rcases h with h | h
    · exact h
    · exact absurd h (by omega)
  | succ n ih =>
    intro best runs starts _
    simp only [ommLoop]
    by_cases h1 : tol < maxAbs (M sys x0).jac
    · rw [if_pos h1]
      by_cases h2 : maxAbs (M sys (M sys x0).x).jac ≤ tol
      · rw [if_pos h2]
        exact updateBest_ne_none _ _ _
      · rw [if_neg h2]
        exact ih _ _ _ (Or.inl (updateBest_ne_none _ _ _))
    · rw [if_neg h1]
      exact updateBest_ne_none _ _ _

lemma ommLoop_inv [LinearOrderedField α] (M : List F → List α → OptResult α)
    (sys : List F) (x0 : List α) (tol : α) :
    ∀ (n : Nat) (best : Option (OptResult α × α)) (runs : List (OptResult α × α))
      (starts : List (List α)),
      (∀ br bf, best = some (br, bf) → ((br, bf) ∈ runs ∧ ∀ p ∈ runs, bf ≤ p.2)) →
      (best = none → runs = []) →
      ((∀ br bf, (ommLoop M sys x0 tol n best runs starts).best = some (br, bf) →
          ((br, bf) ∈ (ommLoop M sys x0 tol n best runs starts).runs ∧
            ∀ p ∈ (ommLoop M sys x0 tol n best runs starts).runs, bf ≤ p.2))
        ∧ (ommLoop M sys x0 tol n best runs starts).runs.length ≤ runs.length + 2 * n) := by
  intro n
  induction n with
  | zero =>
    intro best runs starts h1 _
    exact ⟨h1, by simp [ommLoop]⟩
  | succ n ih =>
    intro best runs starts h1 h2
    simp only [ommLoop]
    by_cases hc1 : tol < maxAbs (M sys x0).jac
    · rw [if_pos hc1]
      have hb1 := updateBest_inv best (M sys x0) (maxAbs (M sys x0).jac) runs h1 h2
      have hb1none : updateBest best (M sys x0) (maxAbs (M sys x0).jac) ≠ none :=
        updateBest_ne_none _ _ _
      have hb2 := updateBest_inv _ (M sys (M sys x0).x) (maxAbs (M sys (M sys x0).x).jac)
        (runs ++ [(M sys x0, maxAbs (M sys x0).jac)]) hb1 (fun h => absurd h hb1none)
      have happ : (runs ++ [(M sys x0, maxAbs (M sys x0).jac)]) ++
          [(M sys (M sys x0).x, maxAbs (M sys (M sys x0).x).jac)] =
          runs ++ [(M sys x0, maxAbs (M sys x0).jac),
            (M sys (M sys x0).x, maxAbs (M sys (M sys x0).x).jac)] := by
        rw [List.append_assoc]
        rfl
      rw [happ] at hb2
      by_cases hc2 : maxAbs (M sys (M sys x0).x).jac ≤ tol
      · rw [if_pos hc2]
        refine ⟨hb2, ?_⟩
        simp only [List.length_append, List.length_cons, List.length_nil]
        omega
      · rw [if_neg hc2]
        have hb2none : updateBest (updateBest best (M sys x0) (maxAbs (M sys x0).jac))
            (M sys (M sys x0).x) (maxAbs (M sys (M sys x0).x).jac) ≠ none :=
          updateBest_ne_none _ _ _
        have := ih _ _ (starts ++ [x0, (M sys x0).x]) hb2 (fun h => absurd h hb2none)
        refine ⟨this.1, ?_⟩
        refine le_trans this.2 ?_
        simp only [List.length_append, List.length_cons, List.length_nil]
        omega
    · rw [if_neg hc1]
      have hb1 := updateBest_inv best (M sys x0) (maxAbs (M sys x0).jac) runs h1 h2
      refine ⟨hb1, ?_⟩
      simp only [List.length_append, List.length_cons, List.length_nil]
      omega

lemma ommLoop_run_50 [LinearOrderedField α] (M : List F → List α → OptResult α)
    (sys2 : List F) (x0 : List α) :
    ∃ br bf, (ommLoop M sys2 x0 ((1 : α) / 10) 50 none [] []).best = some (br, bf)
      ∧ (br, bf) ∈ (ommLoop M sys2 x0 ((1 : α) / 10) 50 none [] []).runs
      ∧ (∀ p ∈ (ommLoop M sys2 x0 ((1 : α) / 10) 50 none [] []).runs, bf ≤ p.2)
      ∧ (ommLoop M sys2 x0 ((1 : α) / 10) 50 none [] []).runs.length ≤ 100 := by
  have hne := ommLoop_best_ne_none M sys2 x0 ((1 : α) / 10) 50 none [] []
    (Or.inr (by omega))
  have hinv := ommLoop_inv M sys2 x0 ((1 : α) / 10) 50 none [] []
    (by intro br bf h; exact absurd h (by simp)) (fun _ => rfl)
  rcases h : (ommLoop M sys2 x0 ((1 : α) / 10) 50 none [] []).best with _ | ⟨br, bf⟩
  · exact absurd h hne
  · obtain ⟨hmem, hbound⟩ := hinv.1 br bf h
    exact ⟨br, bf, rfl, hmem, hbound, by simpa using hinv.2⟩

/-- C5 (amended): OMMMinimizer.minimize never raises on non-convergence: it
runs gradient-based L-BFGS minimization for up to 50 attempts, each attempt
restarting from the initial coordinates and continuing once from the
attempt's own result when the max force component does not fall below the
tolerance of 0.1 kcal/mol/A; it always returns the coordinates of the run
with the smallest observed max force (even if the tolerance was never
reached), and the non-convergence warning fires exactly when that smallest
max force still exceeds the tolerance. -/
theorem ommMinimize_returns_best_run (α F : Type) [LinearOrderedField α]
    (dihAngle : List (α × α × α) → α) (mkRestraint : List (Dihedral × α) → F)
    (M : List F → List α → OptResult α) (sys : List F) (coords : List (α × α × α))
    (restrained : List Dihedral) :
    ∃ br bf,
      (ommMinimize dihAngle mkRestraint M sys coords restrained).best = some (br, bf)
      ∧ (br, bf) ∈ (ommMinimize dihAngle mkRestraint M sys coords restrained).runs
      ∧ (∀ p ∈ (ommMinimize dihAngle mkRestraint M sys coords restrained).runs, bf ≤ p.2)
      ∧ (ommMinimize dihAngle mkRestraint M sys coords restrained).coordsOut = br.x
      ∧ (ommMinimize dihAngle mkRestraint M sys coords restrained).warned
          = decide ((1 : α) / 10 < bf)
      ∧ (ommMinimize dihAngle mkRestraint M sys coords restrained).runs.length ≤ 100 := by
  obtain ⟨br, bf, h1, h2, h3, h4⟩ := ommLoop_run_50 M
    (if restrained ≠ [] then
      sys ++ [mkRestraint (restrained.map (fun d => (d, dihAngle (dihedralRows coords d))))]
    else sys) (flatten3 coords)
  refine ⟨br, bf, h1, h2, h3, ?_, ?_, h4⟩
  · show bestX (ommLoop M
      (if restrained ≠ [] then
        sys ++ [mkRestraint (restrained.map (fun d => (d, dihAngle (dihedralRows coords d))))]
      else sys) (flatten3 coords) ((1 : α) / 10) 50 none [] []).best = br.x
    rw [h1]
    rfl
  · show bestWarned ((1 : α) / 10) (ommLoop M
      (if restrained ≠ [] then
        sys ++ [mkRestraint (restrained.map (fun d => (d, dihAngle (dihedralRows coords d))))]
      else sys) (flatten3 coords) ((1 : α) / 10) 50 none [] []).best
        = decide ((1 : α) / 10 < bf)
    rw [h1]
    rfl

/-- C5 counterexample: the attempts of the code restart from the original
coordinates, not from the best intermediate point.  With the minimizer
stand-in `exM` and start [0,0,0], every one of the 50 attempts starts at
[0,0,0] and continues once from [1,1,1]; the best point [2,2,2] (max force
2) is never used as a start, and the call returns [2,2,2] with a warning.
The procedure described by the spec's words (each retry one run from the
best point found so far) instead walks to [4,4,4], reaches force 0 within
tolerance and returns without a warning. -/
theorem ommMinimize_restart_counterexample :
    (ommMinimize (fun _ => (0 : ℚ)) (fun _ => ()) exM [] [(0, 0, 0)] []).coordsOut = [2, 2, 2]
    ∧ (ommMinimize (fun _ => (0 : ℚ)) (fun _ => ()) exM [] [(0, 0, 0)] []).warned = true
    ∧ (ommMinimize (fun _ => (0 : ℚ)) (fun _ => ()) exM [] [(0, 0, 0)] []).starts
        = (List.replicate 50 [[(0 : ℚ), 0, 0], [1, 1, 1]]).flatten
    ∧ [(2 : ℚ), 2, 2] ∉ (ommMinimize (fun _ => (0 : ℚ)) (fun _ => ()) exM [] [(0, 0, 0)] []).starts
    ∧ (specMinimize exM [] [(0, 0, 0)]).1 = [4, 4, 4]
    ∧ (specMinimize exM [] [(0, 0, 0)]).2 = false := by
  set_option maxRecDepth 40000 in with_unfolding_all decide

/-! ### Copy-on-write discipline of the molecule-transforming operations -/

lemma setAtomBond_objId (m : Molecule) (p o : Nat) (t bt : String) :
    (setAtomBond m p o t bt).objId = m.objId := rfl

lemma assignOxygens_objId (p : Nat) :
    ∀ (os : List Nat) (m : Molecule) (nd : Nat) (m2 : Molecule),
      assignOxygens p m nd os = Except.ok m2 → m2.objId = m.objId := by
  intro os
  induction os with
  | nil =>
    intro m nd m2 h
    simp only [assignOxygens, Except.ok.injEq] at h
    rw [← h]
  | cons o os ih =>
    intro m nd m2 h
    simp only [assignOxygens] at h
    by_cases h2 : (neighbors m o).length = 2
    · rw [if_pos h2] at h
      rw [ih _ _ _ h, setAtomBond_objId]
    · rw [if_neg h2] at h
      by_cases h10 : (neighbors m o).length = 1 ∧ nd = 0
      · rw [if_pos h10] at h
        rw [ih _ _ _ h, setAtomBond_objId]
      · rw [if_neg h10] at h
        by_cases h11 : (neighbors m o).length = 1 ∧ nd = 1
        · rw [if_pos h11] at h
          rw [ih _ _ _ h, setAtomBond_objId]
        · rw [if_neg h11] at h
          exact absurd h (by simp)

lemma processNode_objId (m : Molecule) (node : Nat) (m2 : Molecule)
    (h : processNode m node = Except.ok m2) : m2.objId = m.objId := by
  unfold processNode at h
  by_cases h1 : elem m node ≠ "P"
  · rw [if_pos h1] at h
    simp only [Except.ok.injEq] at h
    rw [← h]
  · rw [if_neg h1] at h
    by_cases h2 : (neighbors m node).length ≠ 4
    · rw [if_pos h2] at h
      simp only [Except.ok.injEq] at h
      rw [← h]
    · rw [if_neg h2] at h
      exact assignOxygens_objId node _ m 0 m2 h

lemma processNodes_objId :
    ∀ (ns : List Nat) (m m2 : Molecule),
      processNodes m ns = Except.ok m2 → m2.objId = m.objId := by
  intro ns
  induction ns with
  | nil =>
    intro m m2 h
    simp only [processNodes, Except.ok.injEq] at h
    rw [← h]
  | cons n ns ih =>
    intro m m2 h
    simp only [processNodes] at h
    rcases hn : processNode m n with e | m1
    · rw [hn] at h; exact absurd h (by simp)
    · rw [hn] at h
      rw [ih m1 m2 h, processNode_objId m n m1 hn]

lemma validLoop_ghost_objId (detect : Molecule → ChiralCenters) (mc : Molecule)
    (init : ChiralCenters) :
    ∀ (b : List QMResult) (mv : Molecule),
      mv ∈ (validLoop detect (some mc) init b).2 → mv.objId = mc.objId := by
  intro b
  induction b with
  | nil => intro mv h; exact absurd h (by simp [validLoop])
  | cons r rs ih =>
    intro mv h
    by_cases he : r.errored
    · simp only [validLoop, he, if_true] at h
      exact ih mv h
    · simp only [validLoop, he] at h
      by_cases hd : detect (mc.setCoords r.coords) ≠ init
      · rw [if_pos hd] at h
        rcases List.mem_cons.mp h with hh | hh
        · rw [hh]; rfl
        · exact ih mv hh
      · rw [if_neg hd] at h
        rcases List.mem_cons.mp h with hh | hh
        · rw [hh]; rfl
        · exact ih mv hh

lemma filterGo_ghost_objId (detect : Molecule → ChiralCenters) (mc : Molecule)
    (init : ChiralCenters) :
    ∀ (bs : List (List QMResult)) (mv : Molecule),
      mv ∈ (filterGo detect (some mc) init bs).2 → mv.objId = mc.objId := by
  intro bs
  induction bs with
  | nil => intro mv h; exact absurd h (by simp [filterGo])
  | cons b rest ih =>
    intro mv h
    simp only [filterGo, List.mem_append] at h
    rcases h with h | h
    · exact validLoop_ghost_objId detect mc init b mv h
    · exact ih mv h

/-- C8: the molecule-transforming core operations obey the copy-on-write
discipline.  In this pure embedding the caller's molecule value is by
construction not written (all source writes were traced onto the value
produced by `Molecule.copy`, which carries a fresh object identifier);
accordingly: makeAtomNamesUnique returns an object distinct from its
argument, fixPhosphateTypes returns an object distinct from its argument
whenever it succeeds, and every molecule value filterQMResults mutates and
hands to the chirality detector (the ghost trace) is the private copy, never
the caller's object. -/
theorem core_ops_copy_on_write :
    (∀ m : Molecule, (makeAtomNamesUnique m).objId ≠ m.objId)
    ∧ (∀ (m m2 : Molecule), fixPhosphateTypes m = Except.ok m2 → m2.objId ≠ m.objId)
    ∧ (∀ (detect : Molecule → ChiralCenters) (all : List (List QMResult)) (m : Molecule),
        ∀ mv ∈ (filterQMResults detect all (some m)).2, mv.objId ≠ m.objId) := by
  refine ⟨?_, ?_, ?_⟩
  · intro m
    show m.objId + 1 ≠ m.objId
    omega
  · intro m m2 h
    have := processNodes_objId (List.range (m.copy).numAtoms) m.copy m2 h
    rw [this]
    show m.objId + 1 ≠ m.objId
    omega
  · intro detect all m mv h
    have : mv ∈ (filterGo detect (some m.copy) (detect m) all).2 := h
    have h2 := filterGo_ghost_objId detect m.copy (detect m) all mv this
    rw [h2]
    show m.objId + 1 ≠ m.objId
    omega

/-- C8 witness: the copy-on-write theorem applied to a concrete molecule:
the molecule value handed to the chirality detector when filtering one
record is the private copy, not the caller's object. -/
theorem core_ops_copy_on_write_witness :
    (emptyMol.copy.setCoords []).objId ≠ emptyMol.objId :=
  core_ops_copy_on_write.2.2 noDetect [[⟨0, false, []⟩]] emptyMol
    (emptyMol.copy.setCoords []) (by with_unfolding_all decide)

/-! ### fixPhosphateTypes: lemmas about the molecular graph helpers -/

lemma mem_dedupFirst : ∀ (l : List Nat) (a : Nat), a ∈ dedupFirst l ↔ a ∈ l := by
  intro l
  induction l using dedupFirst.induct with
  | case1 => intro a; simp [dedupFirst]
  | case2 x l ih =>
    intro a
    rw [dedupFirst]
    by_cases hxa : a = x
    · subst hxa; simp
    · simp only [List.mem_cons, ih, List.mem_filter, decide_eq_true_eq]
      constructor
      · rintro (h | ⟨h, _⟩)
        · exact Or.inl h
        · exact Or.inr h
      · rintro (h | h)
        · exact Or.inl h
        · exact Or.inr ⟨h, hxa⟩

lemma nodup_dedupFirst : ∀ (l : List Nat), (dedupFirst l).Nodup := by
  intro l
  induction l using dedupFirst.induct with
  | case1 => simp [dedupFirst]
  | case2 x l ih =>
    rw [dedupFirst]
    refine List.Nodup.cons ?_ ih
    intro hmem
    rw [mem_dedupFirst] at hmem
    simp only [List.mem_filter, decide_eq_true_eq] at hmem
    exact hmem.2 rfl

lemma mem_neighborsRaw (m : Molecule) (i a : Nat) :
    a ∈ neighborsRaw m i ↔
      ((i, a) ∈ m.bonds ∨ (a, i) ∈ m.bonds) := by
  unfold neighborsRaw
  rw [List.mem_filterMap]
  constructor
  · rintro ⟨b, hb, hba⟩
    by_cases h1 : b.1 = i
    · rw [if_pos h1, Option.some.injEq] at hba
      left
      have : b = (i, a) := by
        obtain ⟨b1, b2⟩ := b
        simp only at h1 hba
        rw [h1, hba]
      rw [← this]; exact hb
    · rw [if_neg h1] at hba
      by_cases h2 : b.2 = i
      · rw [if_pos h2, Option.some.injEq] at hba
        right
        have : b = (a, i) := by
          obtain ⟨b1, b2⟩ := b
          simp only at h2 hba
          rw [h2, hba]
        rw [← this]; exact hb
      · rw [if_neg h2] at hba
        exact absurd hba (by simp)
  · rintro (h | h)
    · exact ⟨(i, a), h, by simp⟩
    · refine ⟨(a, i), h, ?_⟩
      by_cases hai : a = i
      · subst hai; simp
      · simp [hai]

lemma mem_neighbors (m : Molecule) (i a : Nat) :
    a ∈ neighbors m i ↔ ((i, a) ∈ m.bonds ∨ (a, i) ∈ m.bonds) := by
  unfold neighbors
  rw [mem_dedupFirst, mem_neighborsRaw]

lemma neighbors_symm (m : Molecule) (i a : Nat) :
    a ∈ neighbors m i ↔ i ∈ neighbors m a := by
  rw [mem_neighbors, mem_neighbors]
  tauto

lemma nodup_neighbors (m : Molecule) (i : Nat) : (neighbors m i).Nodup :=
  nodup_dedupFirst _

/-- The length-one neighbor list of a terminal atom pins down its unique
neighbor. -/
lemma length_one_mem_eq {l : List Nat} (h : l.length = 1) {a b : Nat}
    (ha : a ∈ l) (hb : b ∈ l) : a = b := by
  rcases l with _ | ⟨x, l⟩
  · exact absurd ha (by simp)
  · rcases l with _ | ⟨y, l⟩
    · simp only [List.mem_singleton] at ha hb
      rw [ha, hb]
    · simp at h

/-! ### Sorting by descending charge -/

lemma mem_insertDesc (key : Nat → ℚ) (x : Nat) :
    ∀ (l : List Nat) (a : Nat), a ∈ insertDesc key x l ↔ a = x ∨ a ∈ l := by
  intro l
  induction l with
  | nil => intro a; simp [insertDesc]
  | cons y ys ih =>
    intro a
    unfold insertDesc
    by_cases hk : key y < key x
    · rw [if_pos hk]
      simp
    · rw [if_neg hk]
      simp only [List.mem_cons, ih]
      tauto

lemma insertDesc_perm (key : Nat → ℚ) (x : Nat) :
    ∀ (l : List Nat), (insertDesc key x l).Perm (x :: l) := by
  intro l
  induction l with
  | nil => simp [insertDesc]
  | cons y ys ih =>
    unfold insertDesc
    by_cases hk : key y < key x
    · rw [if_pos hk]
    · rw [if_neg hk]
      exact (ih.cons y).trans (List.Perm.swap x y ys)

lemma insertDesc_pairwise (key : Nat → ℚ) (x : Nat) :
    ∀ (l : List Nat), l.Pairwise (fun a b => key b ≤ key a) →
      (insertDesc key x l).Pairwise (fun a b => key b ≤ key a) := by
  intro l
  induction l with
  | nil => intro _; simp [insertDesc]
  | cons y ys ih =>
    intro hp
    rw [List.pairwise_cons] at hp
    unfold insertDesc
    by_cases hk : key y < key x
    · rw [if_pos hk]
      refine List.Pairwise.cons ?_ (List.Pairwise.cons hp.1 hp.2)
      intro b hb
      rcases List.mem_cons.mp hb with hb | hb
      · rw [hb]; exact le_of_lt hk
      · exact le_trans (hp.1 b hb) (le_of_lt hk)
    · rw [if_neg hk]
      refine List.Pairwise.cons ?_ (ih hp.2)
      intro b hb
      rw [mem_insertDesc] at hb
      rcases hb with hb | hb
      · rw [hb]; exact le_of_not_lt hk
      · exact hp.1 b hb

lemma sortDesc_perm (key : Nat → ℚ) (l : List Nat) : (sortDesc key l).Perm l := by
  suffices h : ∀ (l acc : List Nat), (l.foldl (fun acc x => insertDesc key x acc) acc).Perm (l ++ acc) by
    have := h l []
    simpa [sortDesc] using this
  intro l
  induction l with
  | nil => intro acc; simp
  | cons x xs ih =>
    intro acc
    rw [List.foldl_cons]
    refine (ih (insertDesc key x acc)).trans ?_
    exact (List.Perm.append_left xs (insertDesc_perm key x acc)).trans List.perm_middle

lemma sortDesc_pairwise (key : Nat → ℚ) (l : List Nat) :
    (sortDesc key l).Pairwise (fun a b => key b ≤ key a) := by
  suffices h : ∀ (l acc : List Nat), acc.Pairwise (fun a b => key b ≤ key a) →
      (l.foldl (fun acc x => insertDesc key x acc) acc).Pairwise (fun a b => key b ≤ key a) by
    exact h l [] (by simp)
  intro l
  induction l with
  | nil => intro acc h; exact h
  | cons x xs ih =>
    intro acc h
    rw [List.foldl_cons]
    exact ih _ (insertDesc_pairwise key x acc h)

lemma mem_sortDesc (key : Nat → ℚ) (l : List Nat) (a : Nat) :
    a ∈ sortDesc key l ↔ a ∈ l :=
  (sortDesc_perm key l).mem_iff

lemma nodup_sortDesc (key : Nat → ℚ) (l : List Nat) (h : l.Nodup) :
    (sortDesc key l).Nodup :=
  ((sortDesc_perm key l).nodup_iff).mpr h

/-- In a list sorted by descending key, the first element satisfying a
predicate has the largest key among all elements satisfying it. -/
lemma find?_maximal (key : Nat → ℚ) (p : Nat → Bool) :
    ∀ (l : List Nat), l.Pairwise (fun a b => key b ≤ key a) →
      ∀ o, l.find? p = some o →
        ∀ t ∈ l, p t = true → key t ≤ key o := by
  intro l
  induction l with
  | nil => intro _ o h; exact absurd h (by simp)
  | cons x xs ih =>
    intro hp o hfind t ht hpt
    rw [List.pairwise_cons] at hp
    by_cases hpx : p x = true
    · rw [List.find?_cons_of_pos _ hpx, Option.some.injEq] at hfind
      subst hfind
      rcases List.mem_cons.mp ht with rfl | ht
      · exact le_refl _
      · exact hp.1 t ht
    · rw [List.find?_cons_of_neg _ (by simpa using hpx)] at hfind
      rcases List.mem_cons.mp ht with rfl | ht
      · exact absurd hpt hpx
      · exact ih hp.2 o hfind t ht hpt

/-! ### fixPhosphateTypes: frame and edge-index lemmas -/

lemma sameShape_refl (m : Molecule) : SameShape m m :=
  ⟨rfl, rfl, rfl, rfl, rfl⟩

lemma sameShape_copy (m : Molecule) : SameShape m m.copy :=
  ⟨rfl, rfl, rfl, rfl, rfl⟩

lemma neighbors_congr {m0 m : Molecule} (h : m.bonds = m0.bonds) :
    neighbors m = neighbors m0 := by
  funext i
  unfold neighbors neighborsRaw
  rw [h]

lemma elem_congr {m0 m : Molecule} (h : m.element = m0.element) : elem m = elem m0 := by
  funext i
  unfold elem
  rw [h]

lemma chargeOf_congr {m0 m : Molecule} (h : m.charge = m0.charge) :
    chargeOf m = chargeOf m0 := by
  funext i
  unfold chargeOf
  rw [h]

lemma edgeIndex_congr {m0 m : Molecule} (h : m.bonds = m0.bonds) :
    edgeIndex m = edgeIndex m0 := by
  funext i j
  unfold edgeIndex
  rw [h]

lemma oxyNbrs_congr {m0 m : Molecule} (hb : m.bonds = m0.bonds)
    (he : m.element = m0.element) : oxyNbrs m = oxyNbrs m0 := by
  funext p
  unfold oxyNbrs
  rw [neighbors_congr hb, elem_congr he]

lemma setAtomBond_sameShape {m0 m : Molecule} (h : SameShape m0 m)
    (p o : Nat) (t bt : String) : SameShape m0 (setAtomBond m p o t bt) := by
  obtain ⟨h1, h2, h3, h4, h5⟩ := h
  refine ⟨h1, h2, h3, ?_, ?_⟩
  · show (m.atomtype.set o t).length = m0.atomtype.length
    rw [List.length_set]; exact h4
  · show (m.bondtype.set (edgeIndex m p o) bt).length = m0.bondtype.length
    rw [List.length_set]; exact h5

lemma setAtomBond_atomtype (m : Molecule) (p o : Nat) (t bt : String) (i : Nat) :
    (setAtomBond m p o t bt).atomtype[i]? =
      if o = i then (if o < m.atomtype.length then some t else none)
      else m.atomtype[i]? := by
  show (m.atomtype.set o t)[i]? = _
  rw [List.getElem?_set]

lemma setAtomBond_bondtype (m : Molecule) (p o : Nat) (t bt : String) (k : Nat) :
    (setAtomBond m p o t bt).bondtype[k]? =
      if edgeIndex m p o = k then
        (if edgeIndex m p o < m.bondtype.length then some bt else none)
      else m.bondtype[k]? := by
  show (m.bondtype.set (edgeIndex m p o) bt)[k]? = _
  rw [List.getElem?_set]

lemma bondMatches_iff (i j : Nat) (b : Nat × Nat) :
    bondMatches i j b = true ↔ b = (i, j) ∨ b = (j, i) := by
  obtain ⟨b1, b2⟩ := b
  simp only [bondMatches, Bool.or_eq_true, Bool.and_eq_true, decide_eq_true_eq,
    Prod.mk.injEq]

lemma foldl_last_mem :
    ∀ (l : List (Nat × (Nat × Nat))) (a : Nat), l ≠ [] →
      ∃ q ∈ l, l.foldl (fun _ p => p.1) a = q.1 := by
  intro l
  induction l with
  | nil => intro a h; exact absurd rfl h
  | cons x xs ih =>
    intro a _
    rw [List.foldl_cons]
    by_cases hxs : xs = []
    · subst hxs
      exact ⟨x, by simp, rfl⟩
    · obtain ⟨q, hq, he⟩ := ih x.1 hxs
      exact ⟨q, List.mem_cons_of_mem _ hq, he⟩

lemma mk_mem_enumFrom {x : Nat × Nat} :
    ∀ (l : List (Nat × Nat)) (n k : Nat), l.get? k = some x →
      (n + k, x) ∈ List.enumFrom n l := by
  intro l
  induction l with
  | nil => intro n k h; exact absurd h (by simp)
  | cons y ys ih =>
    intro n k h
    rcases k with _ | k
    · simp only [List.get?_cons_zero, Option.some_inj] at h
      subst h
      simp [List.enumFrom_cons]
    · simp only [List.get?_cons_succ] at h
      have := ih (n + 1) k h
      rw [List.enumFrom_cons]
      refine List.mem_cons_of_mem _ ?_
      have harith : n + 1 + k = n + (k + 1) := by omega
      rw [harith] at this
      exact this

lemma edgeIndex_spec (m : Molecule) (i j : Nat)
    (h : (i, j) ∈ m.bonds ∨ (j, i) ∈ m.bonds) :
    ∃ b, m.bonds.get? (edgeIndex m i j) = some b ∧ bondMatches i j b = true := by
  have hbond : ∃ b, b ∈ m.bonds ∧ bondMatches i j b = true := by
    rcases h with h | h
    · exact ⟨(i, j), h, by rw [bondMatches_iff]; exact Or.inl rfl⟩
    · exact ⟨(j, i), h, by rw [bondMatches_iff]; exact Or.inr rfl⟩
  obtain ⟨b, hb, hmat⟩ := hbond
  obtain ⟨k, hk, hbk⟩ := List.getElem_of_mem hb
  have hkenum : (k, b) ∈ m.bonds.enum := by
    have hget : m.bonds.get? k = some b := by
      rw [List.get?_eq_getElem?, List.getElem?_eq_getElem hk, hbk]
    have := mk_mem_enumFrom m.bonds 0 k hget
    simpa [List.enum] using this
  have hkf : (k, b) ∈ m.bonds.enum.filter (fun p => bondMatches i j p.2) := by
    rw [List.mem_filter]
    exact ⟨hkenum, hmat⟩
  have hne : m.bonds.enum.filter (fun p => bondMatches i j p.2) ≠ [] :=
    List.ne_nil_of_mem hkf
  obtain ⟨⟨k2, b2⟩, hq, he⟩ := foldl_last_mem _ 0 hne
  rw [List.mem_filter] at hq
  have hqget := List.mem_enum hq.1
  refine ⟨b2, ?_, hq.2⟩
  have hEI : edgeIndex m i j = k2 := he
  rw [hEI, List.get?_eq_getElem?, List.getElem?_eq_getElem hqget.1, ← hqget.2]

lemma edgeIndex_lt (m : Molecule) (i j : Nat)
    (h : (i, j) ∈ m.bonds ∨ (j, i) ∈ m.bonds) :
    edgeIndex m i j < m.bonds.length := by
  obtain ⟨b, hb, _⟩ := edgeIndex_spec m i j h
  rw [List.get?_eq_getElem?] at hb
  by_contra hlen
  rw [List.getElem?_eq_none (by omega)] at hb
  exact absurd hb (by simp)

lemma edgeIndex_distinct (m : Molecule) (p o q o2 : Nat)
    (hpo : (p, o) ∈ m.bonds ∨ (o, p) ∈ m.bonds)
    (hqo : (q, o2) ∈ m.bonds ∨ (o2, q) ∈ m.bonds)
    (hne1 : ¬(q = p ∧ o2 = o)) (hne2 : ¬(q = o ∧ o2 = p)) :
    edgeIndex m p o ≠ edgeIndex m q o2 := by
  intro heq
  obtain ⟨b1, hb1, hm1⟩ := edgeIndex_spec m p o hpo
  obtain ⟨b2, hb2, hm2⟩ := edgeIndex_spec m q o2 hqo
  rw [heq, hb2, Option.some_inj] at hb1
  subst hb1
  rw [bondMatches_iff] at hm1 hm2
  obtain ⟨c1, c2⟩ := b2
  simp only [Prod.mk.injEq] at hm1 hm2
  rcases hm1 with ⟨rfl, rfl⟩ | ⟨rfl, rfl⟩ <;> rcases hm2 with ⟨h1, h2⟩ | ⟨h1, h2⟩
  · exact hne1 ⟨h1.symm, h2.symm⟩
  · exact hne2 ⟨h2.symm, h1.symm⟩
  · exact hne2 ⟨h1.symm, h2.symm⟩
  · exact hne1 ⟨h2.symm, h1.symm⟩

lemma chosenIn_cons_notTerm (m0 : Molecule) (nd o : Nat) (os : List Nat)
    (h : (neighbors m0 o).length ≠ 1) :
    chosenIn m0 nd (o :: os) = chosenIn m0 nd os := by
  unfold chosenIn
  by_cases hnd : nd = 0
  · rw [if_pos hnd, if_pos hnd]
    rw [List.find?_cons_of_neg _ (by simp [h])]
  · rw [if_neg hnd, if_neg hnd]

lemma chosenIn_cons_term (m0 : Molecule) (o : Nat) (os : List Nat)
    (h : (neighbors m0 o).length = 1) :
    chosenIn m0 0 (o :: os) = some o := by
  unfold chosenIn
  rw [if_pos rfl, List.find?_cons_of_pos _ (by simp [h])]

lemma chosenIn_one (m0 : Molecule) (os : List Nat) : chosenIn m0 1 os = none := by
  unfold chosenIn
  simp

lemma elem_lt_of_eq {m0 : Molecule} {o : Nat} {s : String} (hs : s ≠ "")
    (h : elem m0 o = s) : o < m0.element.length := by
  by_contra hge
  rw [elem, List.getD_eq_default _ _ (by omega)] at h
  exact hs h.symm

/-- Core characterization of the oxygen loop of fixPhosphateTypes: starting
from any molecule sharing the read-only data of `m0`, the loop errors
exactly when some listed oxygen has an unexpected bond count, and otherwise
writes O.2/'2' to the current double-bond target (the first remaining
terminal oxygen, when `num_double` is still 0) and O.3/'1' to every other
listed oxygen, leaving every other atom type and bond type unchanged. -/
lemma assignOxygens_spec (m0 : Molecule) (p : Nat)
    (hp : elem m0 p = "P")
    (hat : m0.atomtype.length = m0.element.length)
    (hbt : m0.bondtype.length = m0.bonds.length) :
    ∀ (os : List Nat) (m : Molecule) (nd : Nat),
      SameShape m0 m → os.Nodup →
      (∀ o ∈ os, elem m0 o = "O") →
      (∀ o ∈ os, o ∈ neighbors m0 p) →
      nd ≤ 1 →
      (((¬ ∀ o ∈ os, GoodOxy m0 o) → assignOxygens p m nd os = Except.error ())
        ∧ ((∀ o ∈ os, GoodOxy m0 o) →
            ∃ mf, assignOxygens p m nd os = Except.ok mf
              ∧ SameShape m0 mf
              ∧ (∀ i, i ∉ os → mf.atomtype[i]? = m.atomtype[i]?)
              ∧ (∀ k, (∀ o ∈ os, edgeIndex m0 p o ≠ k) → mf.bondtype[k]? = m.bondtype[k]?)
              ∧ (∀ o ∈ os,
                  ((neighbors m0 o).length = 2 →
                    mf.atomtype[o]? = some "O.3"
                      ∧ mf.bondtype[edgeIndex m0 p o]? = some "1")
                  ∧ ((neighbors m0 o).length = 1 →
                     (chosenIn m0 nd os = some o →
                        mf.atomtype[o]? = some "O.2"
                          ∧ mf.bondtype[edgeIndex m0 p o]? = some "2")
                     ∧ (chosenIn m0 nd os ≠ some o →
                        mf.atomtype[o]? = some "O.3"
                          ∧ mf.bondtype[edgeIndex m0 p o]? = some "1"))))) := by
  intro os
  induction os with
  | nil =>
    intro m nd hss _ _ _ _
    constructor
    · intro hbad
      exact absurd (fun o ho => absurd ho (by simp)) hbad
    · intro _
      exact ⟨m, rfl, hss, fun i _ => rfl, fun k _ => rfl, fun o ho => absurd ho (by simp)⟩
  | cons o os ih =>
    intro m nd hss hnodup hO hN hle
    have hnbr : neighbors m = neighbors m0 := neighbors_congr hss.1
    have hedge : edgeIndex m = edgeIndex m0 := edgeIndex_congr hss.1
    have hoO : elem m0 o = "O" := hO o (List.mem_cons_self _ _)
    have hoN : o ∈ neighbors m0 p := hN o (List.mem_cons_self _ _)
    have hbond_po : (p, o) ∈ m0.bonds ∨ (o, p) ∈ m0.bonds := (mem_neighbors m0 p o).mp hoN
    have hpo : p ≠ o := by
      intro h
      rw [← h] at hoO
      rw [hp] at hoO
      exact absurd hoO (by simp)
    have honos : o ∉ os := (List.nodup_cons.mp hnodup).1
    have hnodup' : os.Nodup := (List.nodup_cons.mp hnodup).2
    have hO' : ∀ x ∈ os, elem m0 x = "O" := fun x hx => hO x (List.mem_cons_of_mem _ hx)
    have hN' : ∀ x ∈ os, x ∈ neighbors m0 p := fun x hx => hN x (List.mem_cons_of_mem _ hx)
    have ho_lt : o < m.atomtype.length := by
      have h1 : o < m0.element.length := elem_lt_of_eq (by simp) hoO
      have h2 := hss.2.2.2.1
      omega
    have hedge_lt : edgeIndex m0 p o < m.bondtype.length := by
      have h1 := edgeIndex_lt m0 p o hbond_po
      have h2 := hss.2.2.2.2
      omega
    have hdistinct : ∀ x ∈ os, edgeIndex m0 p x ≠ edgeIndex m0 p o := by
      intro x hx
      have hxO : elem m0 x = "O" := hO' x hx
      have hxN := (mem_neighbors m0 p x).mp (hN' x hx)
      have hxo : x ≠ o := by
        intro h; rw [h] at hx; exact honos hx
      have hpx : p ≠ x := by
        intro h
        rw [← h] at hxO
        rw [hp] at hxO
        exact absurd hxO (by simp)
      exact edgeIndex_distinct m0 p x p o hxN hbond_po
        (fun hc => hxo (hc.2.symm ▸ rfl)) (fun hc => hpx (hc.1 ▸ rfl))
    by_cases hb2 : (neighbors m0 o).length = 2
    · -- two-coordinate oxygen: O.3 / '1', num_double unchanged
      have hstep : assignOxygens p m nd (o :: os) =
          assignOxygens p (setAtomBond m p o "O.3" "1") nd os := by
        simp only [assignOxygens]
        rw [hnbr, if_pos hb2]
      have hss' : SameShape m0 (setAtomBond m p o "O.3" "1") :=
        setAtomBond_sameShape hss p o _ _
      have IH := ih (setAtomBond m p o "O.3" "1") nd hss' hnodup' hO' hN' hle
      constructor
      · intro hbad
        have hbad' : ¬ ∀ x ∈ os, GoodOxy m0 x := by
          intro hall
          apply hbad
          intro x hx
          rcases List.mem_cons.mp hx with rfl | hx
          · exact Or.inr hb2
          · exact hall x hx
        rw [hstep]
        exact IH.1 hbad'
      · intro hgood
        have hgood' : ∀ x ∈ os, GoodOxy m0 x :=
          fun x hx => hgood x (List.mem_cons_of_mem _ hx)
        obtain ⟨mf, hok, hssf, hatomu, hbondu, hassign⟩ := IH.2 hgood'
        refine ⟨mf, by rw [hstep]; exact hok, hssf, ?_, ?_, ?_⟩
        · intro i hi
          have hios : i ∉ os := fun h => hi (List.mem_cons_of_mem _ h)
          have hio : o ≠ i := fun h => hi (h ▸ List.mem_cons_self _ _)
          rw [hatomu i hios, setAtomBond_atomtype, if_neg hio]
        · intro k hk
          have hkos : ∀ x ∈ os, edgeIndex m0 p x ≠ k :=
            fun x hx => hk x (List.mem_cons_of_mem _ hx)
          have hko : edgeIndex m p o ≠ k := by
            rw [hedge]
            exact hk o (List.mem_cons_self _ _)
          rw [hbondu k hkos, setAtomBond_bondtype, if_neg hko]
        · intro x hx
          rcases List.mem_cons.mp hx with rfl | hx'
          · constructor
            · intro _
              constructor
              · rw [hatomu x honos, setAtomBond_atomtype, if_pos rfl, if_pos ho_lt]
              · rw [hbondu (edgeIndex m0 p x) (fun y hy => hdistinct y hy),
                  setAtomBond_bondtype, hedge, if_pos rfl, if_pos hedge_lt]
            · intro h1
              rw [h1] at hb2
              omega
          · have hx2 := hassign x hx'
            have hchos : chosenIn m0 nd (o :: os) = chosenIn m0 nd os :=
              chosenIn_cons_notTerm m0 nd o os (by omega)
            rw [hchos]
            exact hx2
    · by_cases hb1 : (neighbors m0 o).length = 1
      · by_cases hnd0 : nd = 0
        · -- first terminal oxygen: O.2 / '2', num_double becomes 1
          subst hnd0
          have hstep : assignOxygens p m 0 (o :: os) =
              assignOxygens p (setAtomBond m p o "O.2" "2") 1 os := by
            simp only [assignOxygens]
            rw [hnbr, if_neg hb2, if_pos ⟨hb1, trivial⟩]
          have hss' : SameShape m0 (setAtomBond m p o "O.2" "2") :=
            setAtomBond_sameShape hss p o _ _
          have IH := ih (setAtomBond m p o "O.2" "2") 1 hss' hnodup' hO' hN' (by omega)
          have hchos : chosenIn m0 0 (o :: os) = some o := chosenIn_cons_term m0 o os hb1
          constructor
          · intro hbad
            have hbad' : ¬ ∀ x ∈ os, GoodOxy m0 x := by
              intro hall
              apply hbad
              intro x hx
              rcases List.mem_cons.mp hx with rfl | hx
              · exact Or.inl hb1
              · exact hall x hx
            rw [hstep]
            exact IH.1 hbad'
          · intro hgood
            have hgood' : ∀ x ∈ os, GoodOxy m0 x :=
              fun x hx => hgood x (List.mem_cons_of_mem _ hx)
            obtain ⟨mf, hok, hssf, hatomu, hbondu, hassign⟩ := IH.2 hgood'
            refine ⟨mf, by rw [hstep]; exact hok, hssf, ?_, ?_, ?_⟩
            · intro i hi
              have hios : i ∉ os := fun h => hi (List.mem_cons_of_mem _ h)
              have hio : o ≠ i := fun h => hi (h ▸ List.mem_cons_self _ _)
              rw [hatomu i hios, setAtomBond_atomtype, if_neg hio]
            · intro k hk
              have hkos : ∀ x ∈ os, edgeIndex m0 p x ≠ k :=
                fun x hx => hk x (List.mem_cons_of_mem _ hx)
              have hko : edgeIndex m p o ≠ k := by
                rw [hedge]
                exact hk o (List.mem_cons_self _ _)
              rw [hbondu k hkos, setAtomBond_bondtype, if_neg hko]
            · intro x hx
              rcases List.mem_cons.mp hx with rfl | hx'
              · constructor
                · intro h2
                  omega
                · intro _
                  rw [hchos]
                  constructor
                  · intro _
                    constructor
                    · rw [hatomu x honos, setAtomBond_atomtype, if_pos rfl, if_pos ho_lt]
                    · rw [hbondu (edgeIndex m0 p x) (fun y hy => hdistinct y hy),
                        setAtomBond_bondtype, hedge, if_pos rfl, if_pos hedge_lt]
                  · intro hne
                    exact absurd rfl hne
              · have hx2 := hassign x hx'
                rw [hchos]
                have hxo : x ≠ o := by
                  intro h; rw [h] at hx'; exact honos hx'
                constructor
                · exact (hx2).1
                · intro h1
                  constructor
                  · intro heq
                    have : o = x := by
                      have := Option.some.injEq o x ▸ heq
                      exact Option.some_injective _ heq
                    exact absurd this.symm hxo
                  · intro _
                    have h3 := (hx2.2 h1).2
                    rw [chosenIn_one] at h3
                    exact h3 (by simp)
        · -- later terminal oxygen: O.3 / '1'
          have hnd1 : nd = 1 := by omega
          subst hnd1
          have hstep : assignOxygens p m 1 (o :: os) =
              assignOxygens p (setAtomBond m p o "O.3" "1") 1 os := by
            simp only [assignOxygens]
            rw [hnbr, if_neg hb2, if_neg (by simp), if_pos ⟨hb1, trivial⟩]
          have hss' : SameShape m0 (setAtomBond m p o "O.3" "1") :=
            setAtomBond_sameShape hss p o _ _
          have IH := ih (setAtomBond m p o "O.3" "1") 1 hss' hnodup' hO' hN' (by omega)
          constructor
          · intro hbad
            have hbad' : ¬ ∀ x ∈ os, GoodOxy m0 x := by
              intro hall
              apply hbad
              intro x hx
              rcases List.mem_cons.mp hx with rfl | hx
              · exact Or.inl hb1
              · exact hall x hx
            rw [hstep]
            exact IH.1 hbad'
          · intro hgood
            have hgood' : ∀ x ∈ os, GoodOxy m0 x :=
              fun x hx => hgood x (List.mem_cons_of_mem _ hx)
            obtain ⟨mf, hok, hssf, hatomu, hbondu, hassign⟩ := IH.2 hgood'
            refine ⟨mf, by rw [hstep]; exact hok, hssf, ?_, ?_, ?_⟩
            · intro i hi
              have hios : i ∉ os := fun h => hi (List.mem_cons_of_mem _ h)
              have hio : o ≠ i := fun h => hi (h ▸ List.mem_cons_self _ _)
              rw [hatomu i hios, setAtomBond_atomtype, if_neg hio]
            · intro k hk
              have hkos : ∀ x ∈ os, edgeIndex m0 p x ≠ k :=
                fun x hx => hk x (List.mem_cons_of_mem _ hx)
              have hko : edgeIndex m p o ≠ k := by
                rw [hedge]
                exact hk o (List.mem_cons_self _ _)
              rw [hbondu k hkos, setAtomBond_bondtype, if_neg hko]
            · intro x hx
              rcases List.mem_cons.mp hx with rfl | hx'
              · constructor
                · intro h2
                  omega
                · intro _
                  rw [chosenIn_one]
                  constructor
                  · intro heq
                    exact absurd heq (by simp)
                  · intro _
                    constructor
                    · rw [hatomu x honos, setAtomBond_atomtype, if_pos rfl, if_pos ho_lt]
                    · rw [hbondu (edgeIndex m0 p x) (fun y hy => hdistinct y hy),
                        setAtomBond_bondtype, hedge, if_pos rfl, if_pos hedge_lt]
              · have hx2 := hassign x hx'
                rw [chosenIn_one]
                rw [chosenIn_one] at hx2
                exact hx2
      · -- unexpected bond count: ValueError
        have hstep : assignOxygens p m nd (o :: os) = Except.error () := by
          simp only [assignOxygens]
          rw [hnbr, if_neg hb2, if_neg (by rintro ⟨h, _⟩; exact hb1 h),
            if_neg (by rintro ⟨h, _⟩; exact hb1 h)]
        constructor
        · intro _
          exact hstep
        · intro hgood
          rcases hgood o (List.mem_cons_self _ _) with h | h
          · exact absurd h hb1
          · exact absurd h hb2

lemma mem_oxyNbrs {m0 : Molecule} {p o : Nat} :
    o ∈ oxyNbrs m0 p ↔ o ∈ neighbors m0 p ∧ elem m0 o = "O" := by
  unfold oxyNbrs
  rw [List.mem_filter]
  simp

lemma nodup_oxyNbrs (m0 : Molecule) (p : Nat) : (oxyNbrs m0 p).Nodup :=
  (nodup_neighbors m0 p).filter _

lemma mem_sortedOxys {m0 : Molecule} {p o : Nat} :
    o ∈ sortedOxys m0 p ↔ o ∈ oxyNbrs m0 p := by
  unfold sortedOxys
  exact mem_sortDesc _ _ _

lemma chosenO_eq_chosenIn (m0 : Molecule) (p : Nat) :
    chosenO m0 p = chosenIn m0 0 (sortedOxys m0 p) := by
  unfold chosenO chosenIn
  rw [if_pos rfl]

lemma processNode_skip (m0 : Molecule) {m : Molecule} (hss : SameShape m0 m) (n : Nat)
    (h : ¬ P4 m0 n) : processNode m n = Except.ok m := by
  unfold processNode
  have he : elem m = elem m0 := elem_congr hss.2.1
  have hn : neighbors m = neighbors m0 := neighbors_congr hss.1
  by_cases hP : elem m0 n = "P"
  · have h4 : (neighbors m0 n).length ≠ 4 := by
      intro h4
      exact h ⟨hP, h4⟩
    rw [if_neg (by rw [he]; exact not_not_intro hP), if_pos (by rw [hn]; exact h4)]
  · rw [if_pos (by rw [he]; exact hP)]

lemma processNode_P4 (m0 : Molecule)
    (hat : m0.atomtype.length = m0.element.length)
    (hbt : m0.bondtype.length = m0.bonds.length)
    {m : Molecule} (hss : SameShape m0 m) (n : Nat)
    (hP : elem m0 n = "P") (h4 : (neighbors m0 n).length = 4) :
    ((¬ ∀ o ∈ oxyNbrs m0 n, GoodOxy m0 o) → processNode m n = Except.error ())
    ∧ ((∀ o ∈ oxyNbrs m0 n, GoodOxy m0 o) →
        ∃ mf, processNode m n = Except.ok mf
          ∧ SameShape m0 mf
          ∧ (∀ i, i ∉ oxyNbrs m0 n → mf.atomtype[i]? = m.atomtype[i]?)
          ∧ (∀ k, (∀ o ∈ oxyNbrs m0 n, edgeIndex m0 n o ≠ k) →
              mf.bondtype[k]? = m.bondtype[k]?)
          ∧ (∀ o ∈ oxyNbrs m0 n, Assigned m0 mf n o)) := by
  have he : elem m = elem m0 := elem_congr hss.2.1
  have hn : neighbors m = neighbors m0 := neighbors_congr hss.1
  have hc : chargeOf m = chargeOf m0 := chargeOf_congr hss.2.2.1
  have hunfold : processNode m n = assignOxygens n m 0 (sortedOxys m0 n) := by
    unfold processNode
    rw [if_neg (by rw [he]; exact not_not_intro hP),
      if_neg (by rw [hn]; exact not_not_intro h4)]
    unfold sortedOxys oxyNbrs
    rw [hn, he, hc]
  have hspec := assignOxygens_spec m0 n hP hat hbt (sortedOxys m0 n) m 0 hss
    (nodup_sortDesc _ _ (nodup_oxyNbrs m0 n))
    (fun o ho => (mem_oxyNbrs.mp (mem_sortedOxys.mp ho)).2)
    (fun o ho => (mem_oxyNbrs.mp (mem_sortedOxys.mp ho)).1)
    (by omega)
  constructor
  · intro hbad
    rw [hunfold]
    apply hspec.1
    intro hall
    apply hbad
    intro o ho
    exact hall o (mem_sortedOxys.mpr ho)
  · intro hgood
    obtain ⟨mf, hok, hssf, hatomu, hbondu, hassign⟩ := hspec.2
      (fun o ho => hgood o (mem_sortedOxys.mp ho))
    refine ⟨mf, by rw [hunfold]; exact hok, hssf, ?_, ?_, ?_⟩
    · intro i hi
      exact hatomu i (fun h => hi (mem_sortedOxys.mp h))
    · intro k hk
      exact hbondu k (fun o ho => hk o (mem_sortedOxys.mp ho))
    · intro o ho
      have h2 := hassign o (mem_sortedOxys.mpr ho)
      rw [← chosenO_eq_chosenIn] at h2
      exact h2

lemma processNode_sameShape (m0 : Molecule)
    (hat : m0.atomtype.length = m0.element.length)
    (hbt : m0.bondtype.length = m0.bonds.length)
    {m m1 : Molecule} (hss : SameShape m0 m) (n : Nat)
    (h : processNode m n = Except.ok m1) : SameShape m0 m1 := by
  by_cases hp : P4 m0 n
  · by_cases hg : ∀ o ∈ oxyNbrs m0 n, GoodOxy m0 o
    · obtain ⟨mf, hok, hssf, _, _, _⟩ := (processNode_P4 m0 hat hbt hss n hp.1 hp.2).2 hg
      rw [hok, Except.ok.injEq] at h
      rw [← h]
      exact hssf
    · rw [(processNode_P4 m0 hat hbt hss n hp.1 hp.2).1 hg] at h
      exact absurd h (by simp)
  · rw [processNode_skip m0 hss n hp, Except.ok.injEq] at h
    rw [← h]
    exact hss

lemma terminal_writer_unique (m0 : Molecule) {n o q : Nat}
    (hon : o ∈ neighbors m0 n) (h1 : (neighbors m0 o).length = 1)
    (hoq : o ∈ neighbors m0 q) : q = n := by
  have hn : n ∈ neighbors m0 o := (neighbors_symm m0 n o).mp hon
  have hq : q ∈ neighbors m0 o := (neighbors_symm m0 q o).mp hoq
  exact length_one_mem_eq h1 hq hn

lemma edge_writer_unique (m0 : Molecule) {n o q o2 : Nat}
    (hP : elem m0 n = "P") (hoO : elem m0 o = "O")
    (hqP : elem m0 q = "P") (ho2O : elem m0 o2 = "O")
    (hon : o ∈ neighbors m0 n) (ho2q : o2 ∈ neighbors m0 q)
    (heq : edgeIndex m0 q o2 = edgeIndex m0 n o) : q = n ∧ o2 = o := by
  by_contra hcon
  have hne2 : ¬(q = o ∧ o2 = n) := by
    rintro ⟨rfl, _⟩
    rw [hqP] at hoO
    exact absurd hoO (by simp)
  exact edgeIndex_distinct m0 n o q o2 ((mem_neighbors m0 n o).mp hon)
    ((mem_neighbors m0 q o2).mp ho2q) hcon hne2 heq.symm

lemma processNodes_spec (m0 : Molecule)
    (hat : m0.atomtype.length = m0.element.length)
    (hbt : m0.bondtype.length = m0.bonds.length) :
    ∀ (ns : List Nat) (m : Molecule), SameShape m0 m → ns.Nodup →
      ((∀ m2, processNodes m ns = Except.ok m2 →
        (SameShape m0 m2
          ∧ (∀ p ∈ ns, P4 m0 p → ∀ o ∈ oxyNbrs m0 p, GoodOxy m0 o)
          ∧ (∀ p ∈ ns, P4 m0 p → ∀ o ∈ oxyNbrs m0 p, Assigned m0 m2 p o)
          ∧ (∀ i, (¬ ∃ p ∈ ns, P4 m0 p ∧ i ∈ oxyNbrs m0 p) →
              m2.atomtype[i]? = m.atomtype[i]?)
          ∧ (∀ k, (¬ ∃ p ∈ ns, ∃ o ∈ oxyNbrs m0 p, P4 m0 p ∧ edgeIndex m0 p o = k) →
              m2.bondtype[k]? = m.bondtype[k]?)))
      ∧ ((∃ p ∈ ns, P4 m0 p ∧ ∃ o ∈ oxyNbrs m0 p, ¬ GoodOxy m0 o) →
          ∃ e, processNodes m ns = Except.error e)) := by
  intro ns
  induction ns with
  | nil =>
    intro m hss _
    constructor
    · intro m2 h
      simp only [processNodes, Except.ok.injEq] at h
      subst h
      refine ⟨hss, ?_, ?_, fun i _ => rfl, fun k _ => rfl⟩
      · intro p hp; exact absurd hp (by simp)
      · intro p hp; exact absurd hp (by simp)
    · rintro ⟨p, hp, _⟩
      exact absurd hp (by simp)
  | cons n ns ih =>
    intro m hss hnodup
    have hnn : n ∉ ns := (List.nodup_cons.mp hnodup).1
    have hnodup' : ns.Nodup := (List.nodup_cons.mp hnodup).2
    constructor
    · intro m2 h
      rcases hstep : processNode m n with e | m1
      · simp only [processNodes, hstep] at h
        exact absurd h (by simp)
      · have hss1 : SameShape m0 m1 := processNode_sameShape m0 hat hbt hss n hstep
        have h2 : processNodes m1 ns = Except.ok m2 := by
          simpa only [processNodes, hstep] using h
        obtain ⟨hssf, hgood2, hassign2, hatomu2, hbondu2⟩ := (ih m1 hss1 hnodup').1 m2 h2
        by_cases hp4 : P4 m0 n
        · have hgoodn : ∀ o ∈ oxyNbrs m0 n, GoodOxy m0 o := by
            by_contra hbad
            have herr := (processNode_P4 m0 hat hbt hss n hp4.1 hp4.2).1 hbad
            rw [herr] at hstep
            exact absurd hstep (by simp)
          obtain ⟨mf, hok, _, hatomu1, hbondu1, hassign1⟩ :=
            (processNode_P4 m0 hat hbt hss n hp4.1 hp4.2).2 hgoodn
          have hmf : mf = m1 := by
            rw [hok] at hstep
            exact (Except.ok.injEq _ _).mp hstep
          subst hmf
          refine ⟨hssf, ?_, ?_, ?_, ?_⟩
          · intro p hp hP4p
            rcases List.mem_cons.mp hp with rfl | hp'
            · exact hgoodn
            · exact hgood2 p hp' hP4p
          · intro p hp hP4p o ho
            rcases List.mem_cons.mp hp with rfl | hp'
            · have hoN : o ∈ neighbors m0 p := (mem_oxyNbrs.mp ho).1
              have hoO : elem m0 o = "O" := (mem_oxyNbrs.mp ho).2
              have hbondpersist :
                  m2.bondtype[edgeIndex m0 p o]? = mf.bondtype[edgeIndex m0 p o]? := by
                apply hbondu2
                rintro ⟨q, hq, o2, ho2, hqP4, heq⟩
                have huniq := edge_writer_unique m0 hp4.1 hoO hqP4.1
                  (mem_oxyNbrs.mp ho2).2 hoN (mem_oxyNbrs.mp ho2).1 heq
                exact hnn (huniq.1 ▸ hq)
              have hA := hassign1 o ho
              rcases hgoodn o ho with hlen1 | hlen2
              · have hatompersist : m2.atomtype[o]? = mf.atomtype[o]? := by
                  apply hatomu2
                  rintro ⟨q, hq, hqP4, hoq⟩
                  have hqn : q = p :=
                    terminal_writer_unique m0 hoN hlen1 (mem_oxyNbrs.mp hoq).1
                  exact hnn (hqn ▸ hq)
                constructor
                · intro h2len
                  omega
                · intro _
                  constructor
                  · intro hch
                    have hv := (hA.2 hlen1).1 hch
                    exact ⟨hatompersist.trans hv.1, hbondpersist.trans hv.2⟩
                  · intro hch
                    have hv := (hA.2 hlen1).2 hch
                    exact ⟨hatompersist.trans hv.1, hbondpersist.trans hv.2⟩
              · constructor
                · intro _
                  constructor
                  · by_cases hw : ∃ q ∈ ns, P4 m0 q ∧ o ∈ oxyNbrs m0 q
                    · obtain ⟨q, hq, hqP4, hoq⟩ := hw
                      exact ((hassign2 q hq hqP4 o hoq).1 hlen2).1
                    · have hpersist : m2.atomtype[o]? = mf.atomtype[o]? := hatomu2 o hw
                      exact hpersist.trans ((hA.1 hlen2).1)
                  · exact hbondpersist.trans ((hA.1 hlen2).2)
                · intro hlen1
                  omega
            · exact hassign2 p hp' hP4p o ho
          · intro i hi
            have hi2 : ¬ ∃ p ∈ ns, P4 m0 p ∧ i ∈ oxyNbrs m0 p := by
              rintro ⟨p, hp, hx⟩
              exact hi ⟨p, List.mem_cons_of_mem _ hp, hx⟩
            have hi1 : i ∉ oxyNbrs m0 n := fun hmem =>
              hi ⟨n, List.mem_cons_self _ _, hp4, hmem⟩
            rw [hatomu2 i hi2, hatomu1 i hi1]
          · intro k hk
            have hk2 : ¬ ∃ p ∈ ns, ∃ o ∈ oxyNbrs m0 p, P4 m0 p ∧ edgeIndex m0 p o = k := by
              rintro ⟨p, hp, hx⟩
              exact hk ⟨p, List.mem_cons_of_mem _ hp, hx⟩
            have hk1 : ∀ o ∈ oxyNbrs m0 n, edgeIndex m0 n o ≠ k := by
              intro o ho heq
              exact hk ⟨n, List.mem_cons_self _ _, o, ho, hp4, heq⟩
            rw [hbondu2 k hk2, hbondu1 k hk1]
        · have hmn : m1 = m := by
            rw [processNode_skip m0 hss n hp4] at hstep
            exact ((Except.ok.injEq _ _).mp hstep).symm
          subst hmn
          refine ⟨hssf, ?_, ?_, ?_, ?_⟩
          · intro p hp hP4p
            rcases List.mem_cons.mp hp with rfl | hp'
            · exact absurd hP4p hp4
            · exact hgood2 p hp' hP4p
          · intro p hp hP4p o ho
            rcases List.mem_cons.mp hp with rfl | hp'
            · exact absurd hP4p hp4
            · exact hassign2 p hp' hP4p o ho
          · intro i hi
            apply hatomu2
            rintro ⟨p, hp, hx⟩
            exact hi ⟨p, List.mem_cons_of_mem _ hp, hx⟩
          · intro k hk
            apply hbondu2
            rintro ⟨p, hp, hx⟩
            exact hk ⟨p, List.mem_cons_of_mem _ hp, hx⟩
    · rintro ⟨p, hp, hP4p, o, ho, hbado⟩
      rcases List.mem_cons.mp hp with rfl | hp'
      · have herr := (processNode_P4 m0 hat hbt hss p hP4p.1 hP4p.2).1
          (fun hall => hbado (hall o ho))
        exact ⟨(), by simp only [processNodes, herr]⟩
      · rcases hstep : processNode m n with e | m1
        · exact ⟨e, by simp only [processNodes, hstep]⟩
        · have hss1 : SameShape m0 m1 := processNode_sameShape m0 hat hbt hss n hstep
          obtain ⟨e, he⟩ := (ih m1 hss1 hnodup').2 ⟨p, hp', hP4p, o, ho, hbado⟩
          exact ⟨e, by simp only [processNodes, hstep]; exact he⟩

lemma filter_le_one_of_chosen {l : List Nat} (hn : l.Nodup) (pr : Nat → Bool)
    (c : Option Nat) (h : ∀ x ∈ l.filter pr, c = some x) : (l.filter pr).length ≤ 1 := by
  rcases hf : l.filter pr with _ | ⟨x, xs⟩
  · simp
  · rcases xs with _ | ⟨y, ys⟩
    · simp
    · exfalso
      have hx := h x (by rw [hf]; exact List.mem_cons_self _ _)
      have hy := h y (by rw [hf]; exact List.mem_cons_of_mem _ (List.mem_cons_self _ _))
      rw [hx, Option.some_inj] at hy
      have hnod := hn.filter pr
      rw [hf, List.nodup_cons] at hnod
      exact hnod.1 (hy ▸ List.mem_cons_self _ _)

/-- C10: for every phosphorus atom with exactly four bonded neighbors,
fixPhosphateTypes assigns at most one P--O double bond among that
phosphorus's neighboring oxygens; it goes to the singly-bonded (terminal)
oxygen with the highest charge, which is typed O.2 with bond type 2; every
other neighboring terminal oxygen is typed O.3 with bond type 1, every
two-coordinate neighboring oxygen gets O.3 and bond 1, and a ValueError is
raised when a neighboring oxygen of such a phosphorus has three or more
bonds; atoms that are not an oxygen neighbor of a four-coordinate
phosphorus (in particular non-phosphorus atoms and phosphorus atoms without
exactly four neighbors) keep their atom type. -/
theorem fixPhosphateTypes_spec (m : Molecule)
    (hat : m.atomtype.length = m.element.length)
    (hbt : m.bondtype.length = m.bonds.length) :
    (∀ m2, fixPhosphateTypes m = Except.ok m2 →
      ∀ p, elem m p = "P" → (neighbors m p).length = 4 →
        ((∀ o ∈ oxyNbrs m p, (neighbors m o).length = 2 →
            m2.atomtype[o]? = some "O.3" ∧ m2.bondtype[edgeIndex m p o]? = some "1")
          ∧ (∀ o ∈ oxyNbrs m p, (neighbors m o).length = 1 →
              (chosenO m p = some o →
                m2.atomtype[o]? = some "O.2" ∧ m2.bondtype[edgeIndex m p o]? = some "2"
                  ∧ ∀ t ∈ oxyNbrs m p, (neighbors m t).length = 1 →
                      chargeOf m t ≤ chargeOf m o)
              ∧ (chosenO m p ≠ some o →
                m2.atomtype[o]? = some "O.3" ∧ m2.bondtype[edgeIndex m p o]? = some "1"))
          ∧ ((oxyNbrs m p).filter
              (fun o => decide (m2.bondtype[edgeIndex m p o]? = some "2"))).length ≤ 1))
    ∧ (∀ m2, fixPhosphateTypes m = Except.ok m2 →
        ∀ i, (¬ ∃ p, elem m p = "P" ∧ (neighbors m p).length = 4 ∧ i ∈ oxyNbrs m p) →
          m2.atomtype[i]? = m.atomtype[i]?)
    ∧ ((∃ p, elem m p = "P" ∧ (neighbors m p).length = 4 ∧
          ∃ o ∈ oxyNbrs m p, 3 ≤ (neighbors m o).length) →
        ∃ e, fixPhosphateTypes m = Except.error e) := by
  have hspec := processNodes_spec m hat hbt (List.range m.copy.numAtoms) m.copy
    (sameShape_copy m) (List.nodup_range _)
  have hmemrange : ∀ p, elem m p = "P" → p ∈ List.range m.copy.numAtoms := by
    intro p hP
    exact List.mem_range.mpr (elem_lt_of_eq (by simp) hP)
  refine ⟨?_, ?_, ?_⟩
  · intro m2 hok p hP h4
    obtain ⟨_, hgood, hassign, _, _⟩ := hspec.1 m2 hok
    have hpmem := hmemrange p hP
    have hP4 : P4 m p := ⟨hP, h4⟩
    have hgoodp := hgood p hpmem hP4
    have hassignp := hassign p hpmem hP4
    refine ⟨?_, ?_, ?_⟩
    · intro o ho hlen2
      exact (hassignp o ho).1 hlen2
    · intro o ho hlen1
      constructor
      · intro hch
        have hv := ((hassignp o ho).2 hlen1).1 hch
        refine ⟨hv.1, hv.2, ?_⟩
        intro t ht hlent
        have hch2 : (sortedOxys m p).find?
            (fun x => decide ((neighbors m x).length = 1)) = some o := hch
        exact find?_maximal (chargeOf m) _ (sortedOxys m p)
          (sortDesc_pairwise _ _) o hch2 t (mem_sortedOxys.mpr ht) (by simp [hlent])
      · intro hch
        exact ((hassignp o ho).2 hlen1).2 hch
    · apply filter_le_one_of_chosen (nodup_oxyNbrs m p) _ (chosenO m p)
      intro x hx
      rw [List.mem_filter, decide_eq_true_eq] at hx
      obtain ⟨hxmem, hxeq⟩ := hx
      rcases hgoodp x hxmem with hlen1 | hlen2
      · by_cases hch : chosenO m p = some x
        · exact hch
        · have hv := ((hassignp x hxmem).2 hlen1).2 hch
          rw [hv.2] at hxeq
          exact absurd hxeq (by simp)
      · have hv := (hassignp x hxmem).1 hlen2
        rw [hv.2] at hxeq
        exact absurd hxeq (by simp)
  · intro m2 hok i hi
    obtain ⟨_, _, _, hatomu, _⟩ := hspec.1 m2 hok
    have h := hatomu i ?_
    · exact h
    · rintro ⟨p, _, hP4, hmem⟩
      exact hi ⟨p, hP4.1, hP4.2, hmem⟩
  · rintro ⟨p, hP, h4, o, ho, hbad⟩
    refine hspec.2 ⟨p, hmemrange p hP, ⟨hP, h4⟩, o, ho, ?_⟩
    unfold GoodOxy
    omega

/-- C10 witness: on the concrete phosphate group the theorem yields that at
most one of the four P--O bonds is typed as a double bond. -/
theorem fixPhosphateTypes_spec_witness :
    ((oxyNbrs phosMol 0).filter
        (fun o => decide (m2Phos.bondtype[edgeIndex phosMol 0 o]? = some "2"))).length ≤ 1 :=
  ((fixPhosphateTypes_spec phosMol rfl rfl).1 m2Phos
    (by with_unfolding_all rfl) 0 (by with_unfolding_all decide)
    (by with_unfolding_all decide)).2.2

end Param
